import Mathlib

/-!
PRS-CS Gibbs sampler (`src/prscs_mcmc.h`): shallow embedding.

The header defines four functions: the kernel functions `psi`, `dpsi`, the
envelope indicator `g`, the rejection sampler `gigrnd`, and the driver
`prs_cs_mcmc`.

Conventions of the embedding.

* `double` is read as an ordered field: the driver is generic in a
  `LinearOrderedField α` (so it runs on `ℚ`), the sampler `gigrnd` lives in `ℝ`
  because it needs `exp`, `log`, `cosh`, `sinh` and `sqrt`.
* `int` is `Int` (no wrap-around is modelled: the counts stay far from 2^31),
  `/` and `%` on `int` are the truncating `Int.tdiv` and `Int.tmod`.
* Calls into GSL, Armadillo and libm are fields of `Libs`: the generator state
  is threaded explicitly, a call that throws returns `none`.
* A pointer `double* phi` is `Option α`: `none` is the null pointer, `some v` a
  cell holding `v`.  Undefined behaviour and exceptions are values of `Fault`.
* Printing (`verbose`) has no effect on the numbers and is left out.
-/

namespace PrsCs

/-- Ways in which a run of the C++ code stops without a result. -/
inductive Fault where
  /-- dereference of a null `phi` -/
  | nullDeref
  /-- integer division by zero -/
  | divByZero
  /-- index outside a vector -/
  | outOfBounds
  /-- Armadillo operands of different size -/
  | sizeMismatch
  /-- `arma::chol` or `arma::solve` threw -/
  | linalgFailed
  /-- the rejection loop of `gigrnd` did not accept -/
  | noAccept
  deriving DecidableEq

/-- The external libraries as seen by the header: GSL generator (`ρ` is the
state of a `gsl_rng`), Armadillo (`σ` is the state of its global generator) and
`std::sqrt`. -/
structure Libs (ρ σ α : Type) where
  /-- `gsl_rng_alloc(gsl_rng_default)`: a generator in its default-seeded state -/
  gsl_rng_alloc : ρ
  /-- `gsl_rng_set(rng, seed)` -/
  gsl_rng_set : ρ → Int → ρ
  /-- `gsl_rng_uniform(rng)` -/
  gsl_rng_uniform : ρ → α × ρ
  /-- `gsl_ran_gamma(rng, shape, scale)` -/
  gsl_ran_gamma : ρ → α → α → α × ρ
  /-- `arma::randn<arma::vec>(k)` -/
  randn : σ → Nat → List α × σ
  /-- `arma::chol(A)` -/
  chol : List (List α) → Option (List (List α))
  /-- `arma::solve(arma::trimatl(A), v, fast)` -/
  solve_trimatl : List (List α) → List α → Option (List α)
  /-- `arma::solve(arma::trimatu(A), v, fast)` -/
  solve_trimatu : List (List α) → List α → Option (List α)
  /-- `std::sqrt` -/
  sqrt : α → α

/-- Arguments of `prs_cs_mcmc` (all but `verbose`). -/
structure Args (α : Type) where
  a : α
  b : α
  phi : Option α
  sumstats : List (List α)
  n : Int
  ld_blk : List (List (List α))
  n_iter : Int
  n_burnin : Int
  thin : Int
  beta_std : Bool
  seed : Option Int

/-- The variables `beta`, `psi`, `sigma`, `*phi` of the loop, with the two
generator states. -/
structure SamplerState (ρ σ α : Type) where
  beta : List α
  psi : List α
  sigma : α
  phi : Option α
  rng : ρ
  arma : σ

/-- The accumulators `beta_est`, `psi_est`, `sigma_est`, `phi_est`. -/
structure Posterior (α : Type) where
  beta_est : List α
  psi_est : List α
  sigma_est : α
  phi_est : α

section Driver

variable {ρ σ α : Type} [LinearOrderedField α]

/-- `arma::vec(p, fill::zeros)` -/
def zeros (p : Nat) : List α := List.replicate p 0

/-- `arma::vec(p, fill::ones)` -/
def ones (p : Nat) : List α := List.replicate p 1

/-- `arma::dot(x, y)` -/
def dot (x y : List α) : α := (List.zipWith (fun u v => u * v) x y).sum

/-- Matrix times vector. -/
def matVec (A : List (List α)) (x : List α) : List α := A.map (fun row => dot row x)

/-- `arma::diagmat(d)` -/
def diagmat (d : List α) : List (List α) :=
  (List.range d.length).map (fun i =>
    (List.range d.length).map (fun j => if i = j then d.getD i 0 else 0))

/-- Element-wise sum of two matrices of the same shape. -/
def matAdd (A B : List (List α)) : List (List α) :=
  List.zipWith (fun ra rb => List.zipWith (fun u v => u + v) ra rb) A B

/-- `as_scalar(x.t() * A * x)` -/
def quadForm (A : List (List α)) (x : List α) : α := dot x (matVec A x)

/-- Element-wise `x + y` of two vectors. -/
def vadd (x y : List α) : List α := List.zipWith (fun u v => u + v) x y

/-- `v(idx)` with `idx = regspace(mm, mm + rows - 1)`, read. -/
def subvec (v : List α) (mm rows : Nat) : Except Fault (List α) :=
  if mm + rows ≤ v.length then .ok ((v.drop mm).take rows) else .error .outOfBounds

/-- `v(idx) = x` with `idx = regspace(mm, mm + rows - 1)`. -/
def setSubvec (v : List α) (mm rows : Nat) (x : List α) : Except Fault (List α) :=
  if mm + rows ≤ v.length then
    if x.length = rows then .ok (v.take mm ++ x ++ v.drop (mm + rows))
    else .error .sizeMismatch
  else .error .outOfBounds

/-- Result of a library call that may throw. -/
def orThrow {β : Type} (o : Option β) (f : Fault) : Except Fault β :=
  match o with
  | some v => .ok v
  | none => .error f

/-- Read through the pointer `phi`. -/
def deref (phi : Option α) : Except Fault α := orThrow phi .nullDeref

/-- Lines 200-213: the loop over the LD blocks.  The state is
`(beta, quad, mm, arma generator)`. -/
def block_update (L : Libs ρ σ α) (n : Int) (beta_mrg psi : List α) (sigma : α) :
    List (List (List α)) → List α × α × Nat × σ → Except Fault (List α × α × Nat × σ)
  | [], st => .ok st
  | blk :: rest, (beta, quad, mm, ar) =>
    if blk.length = 0 then block_update L n beta_mrg psi sigma rest (beta, quad, mm, ar)
    else do
      let rows := blk.length
      let psi_blk ← subvec psi mm rows
      if ¬ (∀ row ∈ blk, row.length = rows) then throw Fault.sizeMismatch
      let dinvt := matAdd blk (diagmat (psi_blk.map (fun x => 1 / x)))
      let dinvt_chol ← orThrow (L.chol dinvt) Fault.linalgFailed
      let mrg_blk ← subvec beta_mrg mm rows
      let y ← orThrow (L.solve_trimatl dinvt_chol.transpose mrg_blk) Fault.linalgFailed
      let (z, ar1) := L.randn ar rows
      if y.length ≠ z.length then throw Fault.sizeMismatch
      let beta_tmp := vadd y (z.map (fun u => u * L.sqrt (sigma / (n : α))))
      let x ← orThrow (L.solve_trimatu dinvt_chol beta_tmp) Fault.linalgFailed
      let beta1 ← setSubvec beta mm rows x
      let quad1 := quad + quadForm dinvt x
      block_update L n beta_mrg psi sigma rest (beta1, quad1, mm + rows, ar1)

/-- Lines 215-216: the rate of the residual-variance draw. -/
def errRate (n : Int) (beta beta_mrg psi : List α) (quad : α) : α :=
  max ((n : α) / 2 * (1 - 2 * dot beta beta_mrg + quad))
      ((n : α) / 2 * (List.zipWith (fun bj pj => bj ^ 2 / pj) beta psi).sum)

/-- Lines 219-222: `delta(jj) = gsl_ran_gamma(rng, a + b, 1 / (psi(jj) + *phi))`,
for `jj = 0 .. p-1` in this order. -/
def draw_delta (L : Libs ρ σ α) (a b : α) (phi : Option α) :
    List α → ρ → Except Fault (List α × ρ)
  | [], rng => .ok ([], rng)
  | pj :: rest, rng => do
      let ph ← deref phi
      let (d, rng1) := L.gsl_ran_gamma rng (a + b) (1 / (pj + ph))
      let (ds, rng2) ← draw_delta L a b phi rest rng1
      pure (d :: ds, rng2)

/-- Lines 224-226: `psi(jj) = gigrnd(a - 0.5, 2 * delta(jj), n * beta(jj)^2 / sigma)`
for `jj = 0 .. p-1`; `delta` and `beta` both have `p` elements. -/
def draw_psi (gig : α → α → α → Option α) (a : α) (n : Int) (sigma : α) :
    List α → List α → Except Fault (List α)
  | d :: ds, bj :: bs => do
      let v ← orThrow (gig (a - 1 / 2) (2 * d) ((n : α) * bj ^ 2 / sigma)) Fault.noAccept
      let vs ← draw_psi gig a n sigma ds bs
      pure (v :: vs)
  | _, _ => .ok []

/-- Line 227: `psi.elem(find(psi > 1)).fill(1.0)`. -/
def clamp (psi : List α) : List α := psi.map (fun x => if x > 1 then 1 else x)

/-- Lines 229-232: the update of `*phi` when it is estimated. -/
def update_phi (L : Libs ρ σ α) (b : α) (p : Nat) (phi_updt : Bool) (delta : List α)
    (phi : Option α) (rng : ρ) : Except Fault (Option α × ρ) :=
  if phi_updt then do
    let ph ← deref phi
    let (w, rng1) := L.gsl_ran_gamma rng 1 (1 / (ph + 1))
    let (v, rng2) := L.gsl_ran_gamma rng1 ((p : α) * b + 1 / 2) (1 / (delta.sum + w))
    pure (some v, rng2)
  else .ok (phi, rng)

/-- Lines 198-232: one sweep of the sampler (everything in the loop body before
the accumulation). -/
def gibbs_step (L : Libs ρ σ α) (gig : α → α → α → Option α) (A : Args α)
    (beta_mrg : List α) (p : Nat) (phi_updt : Bool) (s : SamplerState ρ σ α) :
    Except Fault (SamplerState ρ σ α) := do
  let (beta, quad, _, ar) ←
    block_update L A.n beta_mrg s.psi s.sigma A.ld_blk (s.beta, 0, 0, s.arma)
  let err := errRate A.n beta beta_mrg s.psi quad
  let (gm, rng1) := L.gsl_ran_gamma s.rng (((A.n + (p : Int) : Int) : α) / 2) (1 / err)
  let sigma := 1 / gm
  let (delta, rng2) ← draw_delta L A.a A.b s.phi s.psi rng1
  let psi ← draw_psi gig A.a A.n sigma delta beta
  let (phi, rng3) ← update_phi L A.b p phi_updt delta s.phi rng2
  pure { beta := beta, psi := clamp psi, sigma := sigma, phi := phi, rng := rng3, arma := ar }

/-- Line 235: the retention test `itr > n_burnin && (itr % thin == 0)`. -/
def retain (n_burnin thin itr : Int) : Bool :=
  decide (itr > n_burnin) && decide (itr.tmod thin = 0)

/-- Lines 236-239: one accumulation. -/
def accumulate (n_pst : Int) (s : SamplerState ρ σ α) (acc : Posterior α) :
    Except Fault (Posterior α) := do
  let ph ← deref s.phi
  pure { beta_est := vadd acc.beta_est (s.beta.map (fun x => x / (n_pst : α)))
         psi_est := vadd acc.psi_est (s.psi.map (fun x => x / (n_pst : α)))
         sigma_est := acc.sigma_est + s.sigma / (n_pst : α)
         phi_est := acc.phi_est + ph / (n_pst : α) }

/-- The next `k` values of a loop counter that now holds `itr` (`++itr`). -/
def iterFrom : Int → Nat → List Int
  | _, 0 => []
  | itr, k + 1 => itr :: iterFrom (itr + 1) k

/-- The values taken by `itr` in `for (int itr = 1; itr <= n_iter; ++itr)`. -/
def iterations (n_iter : Int) : List Int := iterFrom 1 n_iter.toNat

/-- Lines 193-241: the loop, run over the given values of `itr`. -/
def mcmc_loop (L : Libs ρ σ α) (gig : α → α → α → Option α) (A : Args α)
    (beta_mrg : List α) (p : Nat) (n_pst : Int) (phi_updt : Bool) :
    List Int → SamplerState ρ σ α × Posterior α →
      Except Fault (SamplerState ρ σ α × Posterior α)
  | [], st => .ok st
  | itr :: rest, (s, acc) => do
      let s1 ← gibbs_step L gig A beta_mrg p phi_updt s
      let acc1 ← if retain A.n_burnin A.thin itr then accumulate n_pst s1 acc else pure acc
      mcmc_loop L gig A beta_mrg p n_pst phi_updt rest (s1, acc1)

/-- Line 174: `n_pst = (n_iter - n_burnin) / thin`. -/
def n_pst (n_iter n_burnin thin : Int) : Int := (n_iter - n_burnin).tdiv thin

/-- Lines 165-190: generator, derived statistics and initial values.  Returns
`(beta_mrg, maf, n_pst, p, phi_updt, initial state, zero accumulators)`. -/
def setup (L : Libs ρ σ α) (ar : σ) (A : Args α) :
    Except Fault (List α × List α × Int × Nat × Bool × SamplerState ρ σ α × Posterior α) := do
  let rng := match A.seed with
    | some sd => L.gsl_rng_set L.gsl_rng_alloc sd
    | none => L.gsl_rng_alloc
  let beta_mrg ← orThrow (A.sumstats.get? 1) Fault.outOfBounds
  let maf ← orThrow (A.sumstats.get? 2) Fault.outOfBounds
  if A.thin = 0 then throw Fault.divByZero
  let p := beta_mrg.length
  let phi_updt := A.phi.isNone
  let phi := if !phi_updt then some 1 else A.phi
  pure (beta_mrg, maf, n_pst A.n_iter A.n_burnin A.thin, p, phi_updt,
    { beta := zeros p, psi := ones p, sigma := 1, phi := phi, rng := rng, arma := ar },
    { beta_est := zeros p, psi_est := zeros p, sigma_est := 0, phi_est := 0 })

/-- Lines 245-248: the conversion to per-allele effects. -/
def rescale (L : Libs ρ σ α) (beta_std : Bool) (maf beta_est : List α) :
    Except Fault (List α) :=
  if !beta_std then
    if maf.length = beta_est.length then
      .ok (List.zipWith (fun e m => e / L.sqrt (2 * m * (1 - m))) beta_est maf)
    else .error .sizeMismatch
  else .ok beta_est

/-- Lines 165-243 of `prs_cs_mcmc`: everything up to the end of the loop.  The
result is `(maf, final state, accumulators)`. -/
def run_loop (L : Libs ρ σ α) (gig : α → α → α → Option α) (ar : σ) (A : Args α) :
    Except Fault (List α × SamplerState ρ σ α × Posterior α) := do
  let (beta_mrg, maf, npst, p, phi_updt, s0, acc0) ← setup L ar A
  let (s, acc) ← mcmc_loop L gig A beta_mrg p npst phi_updt (iterations A.n_iter) (s0, acc0)
  pure (maf, s, acc)

/-- The function `prs_cs_mcmc`.  `gig` is the sampler `gigrnd` it calls, `ar` the
state of Armadillo's generator at the call.  The result is the output map, the
final content of the caller's `phi` cell and Armadillo's generator afterwards. -/
def prs_cs_mcmc (L : Libs ρ σ α) (gig : α → α → α → Option α) (ar : σ) (A : Args α) :
    Except Fault (Posterior α × Option α × σ) := do
  let (maf, s, acc) ← run_loop L gig ar A
  let beta_est ← rescale L A.beta_std maf acc.beta_est
  pure ({ acc with beta_est := beta_est }, s.phi, s.arma)

/-- The fault a run stopped with, if any. -/
def faultOf {β : Type} (r : Except Fault β) : Option Fault :=
  match r with
  | .ok _ => none
  | .error f => some f

/-- The result of a run, if it has one. -/
def resultOf {β : Type} (r : Except Fault β) : Option β :=
  match r with
  | .ok v => some v
  | .error _ => none

end Driver

section Sampler

variable {ρ σ : Type}

/-- The function `psi(x, alpha, lambda)` (lines 27-30). -/
noncomputable def psi (x alpha lambda : ℝ) : ℝ :=
  -alpha * (Real.cosh x - 1) - lambda * (Real.exp x - x - 1)

/-- The function `dpsi(x, alpha, lambda)` (lines 40-43). -/
noncomputable def dpsi (x alpha lambda : ℝ) : ℝ :=
  -alpha * Real.sinh x - lambda * (Real.exp x - 1)

/-- The function `g(x, sd, td, f1, f2)` (lines 55-63). -/
noncomputable def g (x sd td f1 f2 : ℝ) : ℝ :=
  if x ≥ -sd ∧ x ≤ td then 1 else if x > td then f1 else f2

/-- Lines 85-89: the breakpoint `t`. -/
noncomputable def breakpoint_t (alpha lambda : ℝ) : ℝ :=
  let x := -psi 1 alpha lambda
  let t := if x ≥ 1 / 2 ∧ x ≤ 2 then 1
    else (if alpha = 0 ∧ lambda = 0 then 1 else Real.sqrt (2 / (alpha + lambda)))
  if x < 1 / 2 then
    (if alpha = 0 ∧ lambda = 0 then 1 else Real.log (4 / (alpha + 2 * lambda)))
  else t

/-- Lines 91-95: the breakpoint `s`. -/
noncomputable def breakpoint_s (alpha lambda : ℝ) : ℝ :=
  let x := -psi (-1) alpha lambda
  let s := if x ≥ 1 / 2 ∧ x ≤ 2 then 1
    else (if alpha = 0 ∧ lambda = 0 then 1
      else Real.sqrt (4 / (alpha * Real.cosh 1 + lambda)))
  if x < 1 / 2 then
    (if alpha = 0 ∧ lambda = 0 then 1
      else (if alpha = 0 then 1 / lambda
        else (if lambda = 0 then
            Real.log (1 + 1 / alpha + Real.sqrt (1 / alpha ^ 2 + 2 / alpha))
          else min (1 / lambda)
            (Real.log (1 + 1 / alpha + Real.sqrt (1 / alpha ^ 2 + 2 / alpha))))))
  else s

/-- The quantities of lines 83-107 that the rejection loop reads. -/
structure Envelope where
  alpha : ℝ
  lambda : ℝ
  t : ℝ
  s : ℝ
  eta : ℝ
  zeta : ℝ
  theta : ℝ
  xi : ℝ
  p_r : ℝ
  r : ℝ
  td : ℝ
  sd : ℝ
  q : ℝ

/-- Lines 83-107, from `lambda` (after the sign swap) and `omega`. -/
noncomputable def envelope (lambda omega : ℝ) : Envelope :=
  let alpha := Real.sqrt (omega ^ 2 + lambda ^ 2) - lambda
  let t := breakpoint_t alpha lambda
  let s := breakpoint_s alpha lambda
  let eta := -psi t alpha lambda
  let zeta := -dpsi t alpha lambda
  let theta := -psi (-s) alpha lambda
  let xi := dpsi (-s) alpha lambda
  let p_r := 1 / xi
  let r := 1 / zeta
  let td := t - r * eta
  let sd := s - p_r * theta
  let q := td + sd
  { alpha := alpha, lambda := lambda, t := t, s := s, eta := eta, zeta := zeta,
    theta := theta, xi := xi, p_r := p_r, r := r, td := td, sd := sd, q := q }

/-- Lines 116-122: the candidate produced from the draws `U` and `V`. -/
noncomputable def candidate (E : Envelope) (U V : ℝ) : ℝ :=
  if U < E.q / (E.p_r + E.q + E.r) then -E.sd + E.q * V
  else if U < (E.q + E.r) / (E.p_r + E.q + E.r) then E.td - E.r * Real.log V
  else -E.sd + E.p_r * Real.log V

/-- Lines 124-126: the acceptance test for the candidate `rnd` and the draw `W`. -/
abbrev accepts (E : Envelope) (rnd W : ℝ) : Prop :=
  W * g rnd E.sd E.td (Real.exp (-E.eta - E.zeta * (rnd - E.t)))
      (Real.exp (-E.theta + E.xi * (rnd + E.s)))
    ≤ Real.exp (psi rnd E.alpha E.lambda)

/-- Lines 111-129: the rejection loop, cut off after `fuel` rounds; the result is
the accepted `rnd`. -/
noncomputable def rejection_loop (L : Libs ρ σ ℝ) (E : Envelope) : Nat → ρ → Option ℝ
  | 0, _ => none
  | fuel + 1, rng =>
    let (U, rng1) := L.gsl_rng_uniform rng
    let (V, rng2) := L.gsl_rng_uniform rng1
    let (W, rng3) := L.gsl_rng_uniform rng2
    let rnd := candidate E U V
    if accepts E rnd W then some rnd else rejection_loop L E fuel rng3

/-- Lines 74-81: `lambda` after the sign swap. -/
noncomputable def gig_lambda (p : ℝ) : ℝ := if p < 0 then -p else p

/-- The accepted candidate of `gigrnd(p, a, b)` before the transformation of
lines 132-137 (`none`: no acceptance within `fuel` rounds). -/
noncomputable def gig_accepted (L : Libs ρ σ ℝ) (fuel : Nat) (p a b : ℝ) : Option ℝ :=
  rejection_loop L (envelope (gig_lambda p) (Real.sqrt (a * b))) fuel L.gsl_rng_alloc

/-- Lines 132-137: back to the GIG scale.  The reading in `ℝ` is that of the
source for `a > 0`, `b > 0`, the precondition of `gigrnd`; where `a * b = 0` the
doubles divide by zero (`inf`, `NaN`) and only the case `p < 0`, in which both
give `0`, is used below. -/
noncomputable def gig_transform (p a b rnd : ℝ) : ℝ :=
  let lambda := gig_lambda p
  let omega := Real.sqrt (a * b)
  let rnd1 := Real.exp rnd * (lambda / omega + Real.sqrt (1 + (lambda / omega) ^ 2))
  let rnd2 := if p < 0 then 1 / rnd1 else rnd1
  rnd2 / Real.sqrt (a / b)

/-- The function `gigrnd(p, a, b)` (lines 73-138); the uniform draws come from a
generator allocated inside the call. -/
noncomputable def gigrnd (L : Libs ρ σ ℝ) (fuel : Nat) (p a b : ℝ) : Option ℝ :=
  (gig_accepted L fuel p a b).map (gig_transform p a b)

/-- Libraries on `ℝ` for concrete runs: the uniform draws are read off the
stream `u`, every normal draw is `z`, every gamma draw is `gm`; `chol` and the
two triangular solves are the exact ones for diagonal matrices. -/
noncomputable def streamLibs (u : Nat → ℝ) (z gm : ℝ) : Libs Nat Nat ℝ where
  gsl_rng_alloc := 0
  gsl_rng_set := fun _ sd => sd.toNat
  gsl_rng_uniform := fun r => (u r, r + 1)
  gsl_ran_gamma := fun r _ _ => (gm, r + 1)
  randn := fun s k => (List.replicate k z, s + k)
  chol := fun A => some (A.map (fun row => row.map Real.sqrt))
  solve_trimatl := fun A v => some (List.zipWith (fun row vi => vi / row.sum) A v)
  solve_trimatu := fun A v => some (List.zipWith (fun row vi => vi / row.sum) A v)
  sqrt := Real.sqrt

/-- Uniform draws `U = 1/4`, then `1/2` for ever. -/
noncomputable def drawsQuarterHalf : Nat → ℝ := fun k => if k = 0 then 1 / 4 else 1 / 2

/-- Uniform draws `U = V = 1/2`, `W = 0` in every round. -/
noncomputable def drawsAcceptAtOnce : Nat → ℝ := fun k => if k % 3 = 2 then 0 else 1 / 2

/-- One variant with marginal effect `0`, one block `[[1]]`, `a = 1/4`, `b = 1/2`,
fixed `phi`, a single retained iteration. -/
noncomputable def zeroEffectArgs : Args ℝ where
  a := 1 / 4
  b := 1 / 2
  phi := some 1
  sumstats := [[], [0], [3 / 10]]
  n := 1000
  ld_blk := [[[1]]]
  n_iter := 1
  n_burnin := 0
  thin := 1
  beta_std := true
  seed := none

/-- The state in which `prs_cs_mcmc` enters its first iteration on
`zeroEffectArgs`. -/
noncomputable def zeroEffectState : SamplerState Nat Nat ℝ where
  beta := [0]
  psi := [1]
  sigma := 1
  phi := some 1
  rng := 0
  arma := 0

end Sampler

/-- A deterministic stand-in for the libraries on `ℚ`, used to run the driver on
concrete inputs: gamma draws alternate between `1` and `2`, uniform draws are
`1/2`, normal draws cycle through `-1, 0, 1`, matrices are treated as diagonal
and `sqrt` as the identity. -/
def demoLibs : Libs Nat Nat ℚ where
  gsl_rng_alloc := 0
  gsl_rng_set := fun _ sd => sd.toNat
  gsl_rng_uniform := fun r => (1 / 2, r + 1)
  gsl_ran_gamma := fun r _ _ => ((((r % 2 : Nat) : ℚ) + 1), r + 1)
  randn := fun s k => ((List.range k).map (fun i => (((s + i) % 3 : Nat) : ℚ) - 1), s + k)
  chol := fun A => some A
  solve_trimatl := fun A v => some (List.zipWith (fun row vi => vi / row.sum) A v)
  solve_trimatu := fun A v => some (List.zipWith (fun row vi => vi / row.sum) A v)
  sqrt := fun x => x

/-- A stand-in for `gigrnd` on `ℚ`. -/
def demoGig (_p a b : ℚ) : Option ℚ := if a ≤ b then some 2 else some (1 / 2)

/-- The state in which `prs_cs_mcmc` enters its first iteration on `scenario`. -/
def scenarioState : SamplerState Nat Nat ℚ where
  beta := [0]
  psi := [1]
  sigma := 1
  phi := some 1
  rng := 1
  arma := 0

/-- The scenario of the specification: one block `[[1]]`, `beta_mrg = [0.1]`,
`maf = [0.3]`, `n = 1000`, `a = 1`, `b = 0.5`, 20 iterations, 10 of burn-in. -/
def scenario (phi : Option ℚ) : Args ℚ where
  a := 1
  b := 1 / 2
  phi := phi
  sumstats := [[], [1 / 10], [3 / 10]]
  n := 1000
  ld_blk := [[[1]]]
  n_iter := 20
  n_burnin := 10
  thin := 1
  beta_std := true
  seed := some 1

section Reference

variable {ρ σ α : Type} [LinearOrderedField α]

/-- The number `p` of variants: the length of `sumstats[1]`. -/
def n_variants (A : Args α) : Nat := (A.sumstats.getD 1 []).length

/-- The states at the end of the next `k` sweeps, oldest first. -/
def snapshots {S : Type} (step : S → Except Fault S) : Nat → S → Except Fault (List S)
  | 0, _ => .ok []
  | k + 1, s => do
      let s1 ← step s
      let rest ← snapshots step k s1
      pure (s1 :: rest)

/-- The states at the end of iterations `1 .. n_iter` of a run of `prs_cs_mcmc`,
computed without any accumulator. -/
def run_snapshots (L : Libs ρ σ α) (gig : α → α → α → Option α) (ar : σ) (A : Args α) :
    Except Fault (List (SamplerState ρ σ α)) := do
  let (beta_mrg, _, _, p, phi_updt, s0, _) ← setup L ar A
  snapshots (gibbs_step L gig A beta_mrg p phi_updt) A.n_iter.toNat s0

/-- From the snapshots of iterations `itr, itr + 1, ...` keep those whose
iteration number exceeds `n_burnin` and is a multiple of `thin`. -/
def select_retained {S : Type} (n_burnin thin : Int) : Int → List S → List S
  | _, [] => []
  | itr, s :: rest =>
    if n_burnin < itr ∧ itr % thin = 0 then s :: select_retained n_burnin thin (itr + 1) rest
    else select_retained n_burnin thin (itr + 1) rest

/-- Arithmetic mean of a list of numbers. -/
def mean (l : List α) : α := l.sum / (l.length : α)

/-- Element-wise arithmetic mean of a list of vectors of length `p`. -/
def vecMean (p : Nat) (vs : List (List α)) : List α :=
  (List.range p).map (fun j => mean (vs.map (fun v => v.getD j 0)))

/-- The number of iterations `itr` in `1 .. n_iter` that pass the retention test. -/
def n_retained (n_iter n_burnin thin : Int) : Nat :=
  ((iterations n_iter).filter (retain n_burnin thin)).length

end Reference

section BlockRanges

variable {α : Type}

end BlockRanges

section GigCalls

variable {ρ σ α : Type} [LinearOrderedField α]

/-- Line 225: the two scale arguments `(2 * delta(jj), n * beta(jj)^2 / sigma)` of
the calls of `gigrnd`, for `jj = 0 .. p-1`. -/
def gig_call_args (n : Int) (sigma : α) (delta beta : List α) : List (α × α) :=
  List.zipWith (fun d bj => (2 * d, (n : α) * bj ^ 2 / sigma)) delta beta

/-- The calls of `gigrnd` with shape `shape` on a list of scale arguments. -/
def call_gig (gig : α → α → α → Option α) (shape : α) : List (α × α) → Except Fault (List α)
  | [] => .ok []
  | c :: rest => do
      let v ← orThrow (gig shape c.1 c.2) Fault.noAccept
      let vs ← call_gig gig shape rest
      pure (v :: vs)

/-- Lines 198-225 of one sweep, up to the calls of `gigrnd`: the scale arguments
with which the sweep calls it. -/
def sweep_gig_args (L : Libs ρ σ α) (A : Args α) (beta_mrg : List α) (p : Nat)
    (s : SamplerState ρ σ α) : Except Fault (List (α × α)) := do
  let (beta, quad, _, _) ←
    block_update L A.n beta_mrg s.psi s.sigma A.ld_blk (s.beta, 0, 0, s.arma)
  let err := errRate A.n beta beta_mrg s.psi quad
  let (gm, rng1) := L.gsl_ran_gamma s.rng (((A.n + (p : Int) : Int) : α) / 2) (1 / err)
  let sigma := 1 / gm
  let (delta, _) ← draw_delta L A.a A.b s.phi s.psi rng1
  pure (gig_call_args A.n sigma delta beta)

end GigCalls

section FreshGenerator

variable {ρ σ : Type}

/-- The state of a generator obtained from `gsl_rng_alloc(gsl_rng_default)` after
`k` calls of `gsl_rng_uniform`. -/
def fresh_state (L : Libs ρ σ ℝ) : Nat → ρ
  | 0 => L.gsl_rng_alloc
  | k + 1 => (L.gsl_rng_uniform (fresh_state L k)).2

/-- The `k`-th uniform draw (counting from 0) of a freshly allocated generator. -/
def fresh_draw (L : Libs ρ σ ℝ) (k : Nat) : ℝ := (L.gsl_rng_uniform (fresh_state L k)).1

/-- The rejection loop of lines 111-129 reading its draws `U, V, W` from a fixed
sequence `u`, starting at position `k`. -/
noncomputable def loop_on_draws (u : Nat → ℝ) (E : Envelope) : Nat → Nat → Option ℝ
  | 0, _ => none
  | fuel + 1, k =>
    if accepts E (candidate E (u k) (u (k + 1))) (u (k + 2)) then
      some (candidate E (u k) (u (k + 1)))
    else loop_on_draws u E fuel (k + 3)

end FreshGenerator

/-! Theorems. -/

section Counting

theorem iterFrom_append_last (a : Int) (k : Nat) :
    iterFrom a (k + 1) = iterFrom a k ++ [a + (k : Int)] := by
  induction k generalizing a with
  | zero => simp [iterFrom]
  | succ k ih =>
    rw [iterFrom, ih (a + 1)]
    simp [iterFrom, add_assoc, add_comm 1 (k : Int)]

theorem retain_cast (nb T m : Nat) :
    retain (nb : Int) (T : Int) ((m : Int) + 1) = (decide (nb < m + 1) && decide (T ∣ m + 1)) := by
  have h1 : ((m : Int) + 1).tmod (T : Int) = (((m + 1) % T : Nat) : Int) := by
    rw [Int.tmod_eq_emod (by omega) (by omega)]
    norm_cast
  unfold retain
  rw [h1]
  congr 1
  · simp only [gt_iff_lt, decide_eq_decide]
    omega
  · simp only [decide_eq_decide]
    rw [Nat.dvd_iff_mod_eq_zero]
    norm_cast

/-- Number of retained iterations among `1 .. N`, for natural-number arguments. -/
theorem count_retained_nat (nb T N : Nat) :
    ((iterFrom 1 N).filter (retain (nb : Int) (T : Int))).length = N / T - (min nb N) / T := by
  induction N with
  | zero => simp [iterFrom]
  | succ N ih =>
    rw [iterFrom_append_last, List.filter_append, List.length_append, ih]
    have hr : retain (nb : Int) (T : Int) (1 + (N : Int))
        = (decide (nb < N + 1) && decide (T ∣ N + 1)) := by
      rw [add_comm]; exact retain_cast nb T N
    simp only [List.filter_cons, List.filter_nil, hr]
    have hdiv := Nat.succ_div N T
    by_cases hlt : nb < N + 1
    · have hmin1 : min nb (N + 1) = nb := by omega
      have hmin2 : min nb N = nb := by omega
      have hle : nb / T ≤ N / T := Nat.div_le_div_right (by omega)
      rw [hmin1, hmin2, hdiv]
      by_cases hd : T ∣ N + 1
      · simp [hlt, hd]; omega
      · simp [hlt, hd]
    · have hmin1 : min nb (N + 1) = N + 1 := by omega
      have hmin2 : min nb N = N := by omega
      rw [hmin1, hmin2]
      simp [hlt]

/-- The count of retained iterations is `n_iter / thin - n_burnin / thin` (natural
division) whenever `0 ≤ n_burnin ≤ n_iter` and `0 ≤ thin`. -/
theorem n_retained_eq (n_iter n_burnin thin : Int) (h0 : 0 ≤ n_burnin)
    (h1 : n_burnin ≤ n_iter) (h2 : 0 ≤ thin) :
    n_retained n_iter n_burnin thin
      = n_iter.toNat / thin.toNat - n_burnin.toNat / thin.toNat := by
  obtain ⟨nb, rfl⟩ := Int.eq_ofNat_of_zero_le h0
  obtain ⟨T, rfl⟩ := Int.eq_ofNat_of_zero_le h2
  obtain ⟨N, rfl⟩ := Int.eq_ofNat_of_zero_le (le_trans h0 h1)
  have hle : nb ≤ N := by exact_mod_cast h1
  unfold n_retained iterations
  simp only [Int.toNat_ofNat]
  rw [count_retained_nat, min_eq_left hle]

theorem n_retained_eq_n_pst (n_iter n_burnin thin : Int) (h0 : 0 ≤ n_burnin)
    (h1 : n_burnin < n_iter) (h2 : 1 ≤ thin) (h3 : thin ∣ n_iter - n_burnin) :
    (n_retained n_iter n_burnin thin : Int) = n_pst n_iter n_burnin thin := by
  rw [n_retained_eq n_iter n_burnin thin h0 (le_of_lt h1) (by omega)]
  obtain ⟨nb, rfl⟩ := Int.eq_ofNat_of_zero_le h0
  obtain ⟨T, rfl⟩ := Int.eq_ofNat_of_zero_le (show (0 : Int) ≤ thin by omega)
  obtain ⟨N, rfl⟩ := Int.eq_ofNat_of_zero_le (show (0 : Int) ≤ n_iter by omega)
  have hT : 0 < T := by exact_mod_cast h2
  have hle : nb ≤ N := by exact_mod_cast (le_of_lt h1)
  obtain ⟨k, hk⟩ := h3
  have hk0 : 0 ≤ k := by
    by_contra hneg
    have : (T : Int) * k ≤ 0 := by
      apply mul_nonpos_of_nonneg_of_nonpos <;> omega
    omega
  obtain ⟨K, rfl⟩ := Int.eq_ofNat_of_zero_le hk0
  have hN : N = nb + K * T := by
    have : (N : Int) = nb + K * T := by rw [mul_comm]; omega
    exact_mod_cast this
  unfold n_pst
  rw [hk, Int.tdiv_eq_ediv (by positivity) (by positivity)]
  simp only [Int.toNat_ofNat]
  rw [hN, Nat.add_mul_div_right _ _ hT]
  rw [Int.mul_ediv_cancel_left _ (by omega)]
  simp

end Counting

/-- C2: for `n_iter > n_burnin ≥ 0`, `thin ≥ 1` and `n_iter - n_burnin` a multiple
of `thin`, the number of iterations `itr` in `1 .. n_iter` passing the retention
test `itr > n_burnin && itr % thin == 0` is exactly
`n_pst = (n_iter - n_burnin) / thin`. -/
theorem retained_count_is_n_pst (n_iter n_burnin thin : Int) (h0 : 0 ≤ n_burnin)
    (h1 : n_burnin < n_iter) (h2 : 1 ≤ thin) (h3 : thin ∣ n_iter - n_burnin) :
    (n_retained n_iter n_burnin thin : Int) = n_pst n_iter n_burnin thin :=
  n_retained_eq_n_pst n_iter n_burnin thin h0 h1 h2 h3

/-- C2, the instance of the specification: `n_iter = 20`, `n_burnin = 10`,
`thin = 1` retains exactly 10 samples. -/
theorem retained_count_is_n_pst_witness :
    (n_retained 20 10 1 : Int) = 10 ∧ n_pst 20 10 1 = 10 := by
  have h := retained_count_is_n_pst 20 10 1 (by decide) (by decide) (by decide) (by decide)
  have h10 : n_pst 20 10 1 = 10 := by decide
  exact ⟨h.trans h10, h10⟩

section ListLemmas

variable {α : Type}

theorem bind_ok_iff {β γ : Type} (x : Except Fault β) (f : β → Except Fault γ) (c : γ) :
    (x >>= f) = .ok c ↔ ∃ b, x = .ok b ∧ f b = .ok c := by
  cases x <;> simp [bind, Except.bind]

theorem orThrow_ok_iff {β : Type} (o : Option β) (f : Fault) (v : β) :
    orThrow o f = .ok v ↔ o = some v := by
  cases o <;> simp [orThrow]

theorem retain_iff (n_burnin thin itr : Int) (hi : 0 ≤ itr) (ht : 0 ≤ thin) :
    retain n_burnin thin itr = true ↔ (n_burnin < itr ∧ itr % thin = 0) := by
  unfold retain
  rw [Int.tmod_eq_emod hi ht]
  simp

theorem setSubvec_ok (v : List α) (mm rows : Nat) (x v1 : List α)
    (h : setSubvec v mm rows x = .ok v1) :
    mm + rows ≤ v.length ∧ x.length = rows ∧ v1 = v.take mm ++ x ++ v.drop (mm + rows) := by
  unfold setSubvec at h
  split at h
  · split at h
    · injection h with h
      exact ⟨by assumption, by assumption, h.symm⟩
    · cases h
  · cases h

theorem setSubvec_length (v : List α) (mm rows : Nat) (x v1 : List α)
    (h : setSubvec v mm rows x = .ok v1) : v1.length = v.length := by
  obtain ⟨h1, h2, rfl⟩ := setSubvec_ok v mm rows x v1 h
  simp only [List.length_append, List.length_take, List.length_drop]
  omega

end ListLemmas

section LoopLemmas

variable {ρ σ α : Type} [LinearOrderedField α]

/-- What a successful pass over a non-empty block did. -/
theorem block_update_cons_ok (L : Libs ρ σ α) (n : Int) (beta_mrg psi : List α) (sigma : α)
    (blk : List (List α)) (rest : List (List (List α))) (beta : List α) (quad : α)
    (mm : Nat) (ar : σ) (st1 : List α × α × Nat × σ) (hne : blk.length ≠ 0)
    (h : block_update L n beta_mrg psi sigma (blk :: rest) (beta, quad, mm, ar) = .ok st1) :
    ∃ (x : List α) (dinvt : List (List α)) (beta1 : List α) (ar1 : σ),
      setSubvec beta mm blk.length x = .ok beta1 ∧
      block_update L n beta_mrg psi sigma rest
        (beta1, quad + quadForm dinvt x, mm + blk.length, ar1) = .ok st1 := by
  rw [block_update] at h
  rw [if_neg hne] at h
  simp only [bind_ok_iff] at h
  obtain ⟨psi_blk, -, h⟩ := h
  split at h
  · simp [throw, throwThe, MonadExceptOf.throw, bind, Except.bind] at h
  · simp only [bind_ok_iff, pure, Except.pure] at h
    obtain ⟨_, -, ch, -, mb, -, y, -, h⟩ := h
    split at h
    · simp [throw, throwThe, MonadExceptOf.throw, bind, Except.bind] at h
    · simp only [bind_ok_iff, pure, Except.pure] at h
      obtain ⟨_, -, x, -, beta1, hset, h⟩ := h
      exact ⟨x, _, beta1, _, hset, h⟩

theorem block_update_length (L : Libs ρ σ α) (n : Int) (beta_mrg psi : List α) (sigma : α)
    (blks : List (List (List α))) :
    ∀ (st st1 : List α × α × Nat × σ),
      block_update L n beta_mrg psi sigma blks st = .ok st1 → st1.1.length = st.1.length := by
  induction blks with
  | nil =>
    intro st st1 h
    simp only [block_update] at h
    injection h with h
    subst h
    rfl
  | cons blk rest ih =>
    rintro ⟨beta, quad, mm, ar⟩ st1 h
    by_cases hne : blk.length = 0
    · rw [block_update, if_pos hne] at h
      exact ih _ _ h
    · obtain ⟨x, dinvt, beta1, ar1, hset, h1⟩ :=
        block_update_cons_ok L n beta_mrg psi sigma blk rest beta quad mm ar st1 hne h
      rw [ih _ _ h1]
      exact setSubvec_length _ _ _ _ _ hset

theorem draw_delta_length (L : Libs ρ σ α) (a b : α) (phi : Option α) (psi : List α) :
    ∀ (rng : ρ) (ds : List α) (rng1 : ρ),
      draw_delta L a b phi psi rng = .ok (ds, rng1) → ds.length = psi.length := by
  induction psi with
  | nil =>
    intro rng ds rng1 h
    simp only [draw_delta] at h
    injection h with h
    injection h with h1 h2
    subst h1
    rfl
  | cons pj rest ih =>
    intro rng ds rng1 h
    simp only [draw_delta, bind_ok_iff, pure, Except.pure] at h
    obtain ⟨ph, -, ⟨ds1, r2⟩, hrec, h⟩ := h
    injection h with h
    injection h with h1 h2
    subst h1
    simp [ih _ _ _ hrec]

theorem draw_psi_length (gig : α → α → α → Option α) (a : α) (n : Int) (sigma : α)
    (delta : List α) :
    ∀ (beta vs : List α), draw_psi gig a n sigma delta beta = .ok vs →
      vs.length = min delta.length beta.length := by
  induction delta with
  | nil =>
    intro beta vs h
    simp only [draw_psi] at h
    injection h with h
    subst h
    simp
  | cons d ds ih =>
    intro beta vs h
    cases beta with
    | nil =>
      simp only [draw_psi] at h
      injection h with h
      subst h
      simp
    | cons bj bs =>
      simp only [draw_psi, bind_ok_iff, pure, Except.pure] at h
      obtain ⟨v, -, vs1, hrec, h⟩ := h
      injection h with h
      subst h
      simp only [List.length_cons, ih _ _ hrec]
      omega

/-- What a successful sweep did. -/
theorem gibbs_step_ok (L : Libs ρ σ α) (gig : α → α → α → Option α) (A : Args α)
    (beta_mrg : List α) (p : Nat) (phi_updt : Bool) (s s1 : SamplerState ρ σ α)
    (h : gibbs_step L gig A beta_mrg p phi_updt s = .ok s1) :
    ∃ (quad : α) (mm : Nat) (delta psi0 : List α) (rng1 rng2 : ρ),
      block_update L A.n beta_mrg s.psi s.sigma A.ld_blk (s.beta, 0, 0, s.arma)
        = .ok (s1.beta, quad, mm, s1.arma) ∧
      s1.sigma = 1 / (L.gsl_ran_gamma s.rng (((A.n + (p : Int) : Int) : α) / 2)
        (1 / errRate A.n s1.beta beta_mrg s.psi quad)).1 ∧
      draw_delta L A.a A.b s.phi s.psi rng1 = .ok (delta, rng2) ∧
      draw_psi gig A.a A.n s1.sigma delta s1.beta = .ok psi0 ∧
      s1.psi = clamp psi0 ∧
      update_phi L A.b p phi_updt delta s.phi rng2 = .ok (s1.phi, s1.rng) := by
  simp only [gibbs_step, bind_ok_iff, pure, Except.pure] at h
  obtain ⟨⟨beta, quad, mm, ar⟩, hb, ⟨delta, rng2⟩, hd, psi0, hp, ⟨phi, rng3⟩, hu, h⟩ := h
  injection h with h
  subst h
  exact ⟨quad, mm, delta, psi0, _, rng2, hb, rfl, hd, hp, rfl, hu⟩

theorem gibbs_step_lengths (L : Libs ρ σ α) (gig : α → α → α → Option α) (A : Args α)
    (beta_mrg : List α) (p : Nat) (phi_updt : Bool) (s s1 : SamplerState ρ σ α)
    (h : gibbs_step L gig A beta_mrg p phi_updt s = .ok s1) :
    s1.beta.length = s.beta.length ∧ s1.psi.length = min s.psi.length s.beta.length := by
  obtain ⟨quad, mm, delta, psi0, rng1, rng2, hb, -, hd, hp, hpsi, -⟩ :=
    gibbs_step_ok L gig A beta_mrg p phi_updt s s1 h
  have h1 := block_update_length L A.n beta_mrg s.psi s.sigma A.ld_blk _ _ hb
  have h2 := draw_delta_length L A.a A.b s.phi s.psi _ _ _ hd
  have h3 := draw_psi_length gig A.a A.n s1.sigma delta _ _ hp
  simp only at h1
  refine ⟨h1, ?_⟩
  rw [hpsi, clamp, List.length_map, h3, h2, h1]

/-- With a fixed `phi` (`phi_updt = false`) a sweep leaves the cell untouched. -/
theorem gibbs_step_phi_fixed (L : Libs ρ σ α) (gig : α → α → α → Option α) (A : Args α)
    (beta_mrg : List α) (p : Nat) (s s1 : SamplerState ρ σ α)
    (h : gibbs_step L gig A beta_mrg p false s = .ok s1) : s1.phi = s.phi := by
  obtain ⟨quad, mm, delta, psi0, rng1, rng2, -, -, -, -, -, hu⟩ :=
    gibbs_step_ok L gig A beta_mrg p false s s1 h
  simp only [update_phi] at hu
  injection hu with hu
  injection hu with h1 h2
  exact h1.symm

/-- With `phi` a null pointer that is to be estimated, no sweep completes. -/
theorem gibbs_step_null (L : Libs ρ σ α) (gig : α → α → α → Option α) (A : Args α)
    (beta_mrg : List α) (p : Nat) (s s1 : SamplerState ρ σ α) (hphi : s.phi = none) :
    gibbs_step L gig A beta_mrg p true s ≠ .ok s1 := by
  intro h
  obtain ⟨quad, mm, delta, psi0, rng1, rng2, -, -, -, -, -, hu⟩ :=
    gibbs_step_ok L gig A beta_mrg p true s s1 h
  simp [update_phi, hphi, deref, orThrow, bind, Except.bind] at hu

end LoopLemmas

section MeanLemmas

variable {ρ σ α : Type} [LinearOrderedField α]

theorem vadd_length (e x : List α) : (vadd e x).length = min e.length x.length := by
  simp [vadd]

theorem vadd_getD (e x : List α) (j : Nat) (he : j < e.length) (hx : j < x.length) :
    (vadd e x).getD j 0 = e.getD j 0 + x.getD j 0 := by
  have hz : j < (vadd e x).length := by rw [vadd_length]; omega
  rw [List.getD_eq_getElem _ _ hz, List.getD_eq_getElem _ _ he, List.getD_eq_getElem _ _ hx]
  simp [vadd]

theorem map_div_getD (x : List α) (c : α) (j : Nat) :
    (x.map (fun u => u / c)).getD j 0 = x.getD j 0 / c := by
  by_cases hj : j < x.length
  · rw [List.getD_eq_getElem _ _ (by simpa using hj), List.getD_eq_getElem _ _ hj]
    simp
  · rw [List.getD_eq_default _ _ (by simpa using hj), List.getD_eq_default _ _ (by omega)]
    simp

theorem eq_map_range_getD (e : List α) : e = (List.range e.length).map (fun j => e.getD j 0) := by
  apply List.ext_getElem
  · simp
  · intro n h1 h2
    rw [List.getElem_map, List.getElem_range, List.getD_eq_getElem _ _ h1]

/-- Adding `v / c` for every vector `v` of `R` to `e`, element by element. -/
theorem foldl_vadd_eq (p : Nat) (c : α) (R : List (List α)) :
    ∀ (e : List α), e.length = p → (∀ v ∈ R, v.length = p) →
      R.foldl (fun e v => vadd e (v.map (fun u => u / c))) e
        = (List.range p).map (fun j => e.getD j 0 + (R.map (fun v => v.getD j 0 / c)).sum) := by
  induction R with
  | nil =>
    intro e he _
    subst he
    simpa using eq_map_range_getD e
  | cons v R ih =>
    intro e he hR
    have hv : v.length = p := hR v (List.mem_cons_self _ _)
    have he1 : (vadd e (v.map (fun u => u / c))).length = p := by
      rw [vadd_length]; simp [he, hv]
    rw [List.foldl_cons, ih _ he1 (fun w hw => hR w (List.mem_cons_of_mem _ hw))]
    apply List.map_congr_left
    intro j hj
    have hjp : j < p := List.mem_range.mp hj
    rw [vadd_getD _ _ _ (by omega) (by simp; omega), map_div_getD]
    simp [add_assoc]

theorem sum_map_div (l : List α) (c : α) : (l.map (fun u => u / c)).sum = l.sum / c := by
  induction l with
  | nil => simp
  | cons a l ih => simp [ih, add_div]

/-- A running sum of `v / c` from zero is the element-wise mean when `c` is the
number of vectors. -/
theorem foldl_vadd_eq_vecMean (p : Nat) (c : α) (R : List (List α))
    (hR : ∀ v ∈ R, v.length = p) (hc : c = (R.length : α)) :
    R.foldl (fun e v => vadd e (v.map (fun u => u / c))) (zeros p) = vecMean p R := by
  rw [foldl_vadd_eq p c R (zeros p) (by simp [zeros]) hR]
  unfold vecMean mean
  apply List.map_congr_left
  intro j hj
  have hjp : j < p := List.mem_range.mp hj
  have hz : (zeros p : List α).getD j 0 = 0 := by
    simp [zeros, List.getD_eq_getElem _ _ (show j < (List.replicate p (0 : α)).length by simpa using hjp)]
  rw [hz, zero_add, hc]
  have := sum_map_div (R.map (fun v => v.getD j 0)) (R.length : α)
  simp only [List.map_map] at this
  simpa [Function.comp] using this

end MeanLemmas

section RunLemmas

variable {ρ σ α : Type} [LinearOrderedField α]

theorem snapshots_length {S : Type} (step : S → Except Fault S) :
    ∀ (k : Nat) (s : S) (snaps : List S), snapshots step k s = .ok snaps → snaps.length = k := by
  intro k
  induction k with
  | zero =>
    intro s snaps h
    simp only [snapshots] at h
    injection h with h
    subst h
    rfl
  | succ k ih =>
    intro s snaps h
    simp only [snapshots, bind_ok_iff, pure, Except.pure] at h
    obtain ⟨s1, -, rest, hr, h⟩ := h
    injection h with h
    subst h
    simp [ih _ _ hr]

/-- A property kept by every successful sweep holds of every snapshot. -/
theorem snapshots_invariant {S : Type} (step : S → Except Fault S) (P : S → Prop)
    (hstep : ∀ s s1, P s → step s = .ok s1 → P s1) :
    ∀ (k : Nat) (s : S) (snaps : List S), P s → snapshots step k s = .ok snaps →
      ∀ t ∈ snaps, P t := by
  intro k
  induction k with
  | zero =>
    intro s snaps _ h
    simp only [snapshots] at h
    injection h with h
    subst h
    simp
  | succ k ih =>
    intro s snaps hs h
    simp only [snapshots, bind_ok_iff, pure, Except.pure] at h
    obtain ⟨s1, h1, rest, hr, h⟩ := h
    injection h with h
    subst h
    intro t ht
    rcases List.mem_cons.mp ht with rfl | ht
    · exact hstep _ _ hs h1
    · exact ih _ _ (hstep _ _ hs h1) hr t ht

theorem select_retained_subset {S : Type} (n_burnin thin : Int) (snaps : List S) :
    ∀ (itr : Int), ∀ t ∈ select_retained n_burnin thin itr snaps, t ∈ snaps := by
  induction snaps with
  | nil => intro itr t ht; simp [select_retained] at ht
  | cons s rest ih =>
    intro itr t ht
    rw [select_retained] at ht
    split at ht
    · rcases List.mem_cons.mp ht with rfl | ht
      · exact List.mem_cons_self _ _
      · exact List.mem_cons_of_mem _ (ih _ t ht)
    · exact List.mem_cons_of_mem _ (ih _ t ht)

theorem select_retained_length {S : Type} (n_burnin thin : Int) (ht : 0 ≤ thin)
    (snaps : List S) :
    ∀ (itr : Int), 0 ≤ itr →
      (select_retained n_burnin thin itr snaps).length
        = ((iterFrom itr snaps.length).filter (retain n_burnin thin)).length := by
  induction snaps with
  | nil => intro itr _; simp [select_retained, iterFrom]
  | cons s rest ih =>
    intro itr hi
    rw [select_retained, List.length_cons, iterFrom, List.filter_cons]
    by_cases hc : n_burnin < itr ∧ itr % thin = 0
    · rw [if_pos hc, if_pos ((retain_iff n_burnin thin itr hi ht).mpr hc)]
      simp [ih (itr + 1) (by omega)]
    · have hr : ¬ (retain n_burnin thin itr = true) := fun h =>
        hc ((retain_iff n_burnin thin itr hi ht).mp h)
      rw [if_neg hc, if_neg hr]
      exact ih (itr + 1) (by omega)

/-- The loop computes the snapshots of the chain and adds each retained one,
divided by `n_pst`, to the accumulators. -/
theorem mcmc_loop_snapshots (L : Libs ρ σ α) (gig : α → α → α → Option α) (A : Args α)
    (beta_mrg : List α) (p : Nat) (npst : Int) (phi_updt : Bool) (ht : 0 ≤ A.thin) :
    ∀ (k : Nat) (itr : Int) (s s1 : SamplerState ρ σ α) (acc acc1 : Posterior α), 0 ≤ itr →
      mcmc_loop L gig A beta_mrg p npst phi_updt (iterFrom itr k) (s, acc) = .ok (s1, acc1) →
      ∃ (snaps : List (SamplerState ρ σ α)) (phis : List α),
        snapshots (gibbs_step L gig A beta_mrg p phi_updt) k s = .ok snaps ∧
        s1 = snaps.getLastD s ∧
        (select_retained A.n_burnin A.thin itr snaps).map (fun t => t.phi) = phis.map some ∧
        acc1.beta_est = ((select_retained A.n_burnin A.thin itr snaps).map (fun t => t.beta)).foldl
          (fun e v => vadd e (v.map (fun u => u / (npst : α)))) acc.beta_est ∧
        acc1.psi_est = ((select_retained A.n_burnin A.thin itr snaps).map (fun t => t.psi)).foldl
          (fun e v => vadd e (v.map (fun u => u / (npst : α)))) acc.psi_est ∧
        acc1.sigma_est = acc.sigma_est +
          (((select_retained A.n_burnin A.thin itr snaps).map (fun t => t.sigma)).map
            (fun u => u / (npst : α))).sum ∧
        acc1.phi_est = acc.phi_est + (phis.map (fun u => u / (npst : α))).sum := by
  intro k
  induction k with
  | zero =>
    intro itr s s1 acc acc1 _ h
    simp only [iterFrom, mcmc_loop] at h
    injection h with h
    injection h with h1 h2
    subst h1 h2
    exact ⟨[], [], rfl, rfl, rfl, rfl, rfl, by simp [select_retained], by simp⟩
  | succ k ih =>
    intro itr s s1 acc acc1 hi h
    rw [iterFrom, mcmc_loop] at h
    rw [bind_ok_iff] at h
    obtain ⟨t, hstep, h⟩ := h
    have hsnap : ∀ snaps, snapshots (gibbs_step L gig A beta_mrg p phi_updt) k t = .ok snaps →
        snapshots (gibbs_step L gig A beta_mrg p phi_updt) (k + 1) s = .ok (t :: snaps) := by
      intro snaps hsn
      simp only [snapshots, hstep, hsn, bind, Except.bind, pure, Except.pure]
    by_cases hc : A.n_burnin < itr ∧ itr % A.thin = 0
    · have hr : retain A.n_burnin A.thin itr = true :=
        (retain_iff A.n_burnin A.thin itr hi ht).mpr hc
      simp only [hr, if_true, bind_ok_iff] at h
      obtain ⟨acc2, hacc, hrest⟩ := h
      obtain ⟨snaps, phis, hsn, hlast, hphi, hb, hp, hs, hf⟩ :=
        ih (itr + 1) t s1 acc2 acc1 (by omega) hrest
      simp only [accumulate, deref, bind_ok_iff, orThrow_ok_iff, pure, Except.pure] at hacc
      obtain ⟨ph, hph, hacc⟩ := hacc
      injection hacc with hacc
      subst hacc
      refine ⟨t :: snaps, ph :: phis, hsnap _ hsn, ?_, ?_, ?_, ?_, ?_, ?_⟩
      · rw [hlast]; cases snaps <;> simp [List.getLastD]
      · simp only [select_retained, if_pos hc, List.map_cons, hphi, hph]
      · simp only [select_retained, if_pos hc, List.map_cons, List.foldl_cons, hb]
      · simp only [select_retained, if_pos hc, List.map_cons, List.foldl_cons, hp]
      · simp only [select_retained, if_pos hc, List.map_cons, List.sum_cons, hs, add_assoc]
      · simp only [List.map_cons, List.sum_cons, hf, add_assoc]
    · have hr : retain A.n_burnin A.thin itr = false := by
        cases hrt : retain A.n_burnin A.thin itr with
        | false => rfl
        | true => exact absurd ((retain_iff A.n_burnin A.thin itr hi ht).mp hrt) hc
      simp only [hr, Bool.false_eq_true, if_false, bind_ok_iff, pure, Except.pure] at h
      obtain ⟨acc2, hacc, hrest⟩ := h
      injection hacc with hacc
      subst hacc
      obtain ⟨snaps, phis, hsn, hlast, hphi, hb, hp, hs, hf⟩ :=
        ih (itr + 1) t s1 acc acc1 (by omega) hrest
      refine ⟨t :: snaps, phis, hsnap _ hsn, ?_, ?_, ?_, ?_, ?_, ?_⟩
      · rw [hlast]; cases snaps <;> simp [List.getLastD]
      · simp only [select_retained, if_neg hc, hphi]
      · simp only [select_retained, if_neg hc, hb]
      · simp only [select_retained, if_neg hc, hp]
      · simp only [select_retained, if_neg hc, hs]
      · exact hf

/-- What a successful `setup` returned. -/
theorem setup_ok (L : Libs ρ σ α) (ar : σ) (A : Args α) (beta_mrg maf : List α) (npst : Int)
    (p : Nat) (phi_updt : Bool) (s0 : SamplerState ρ σ α) (acc0 : Posterior α)
    (h : setup L ar A = .ok (beta_mrg, maf, npst, p, phi_updt, s0, acc0)) :
    A.sumstats.get? 1 = some beta_mrg ∧ A.sumstats.get? 2 = some maf ∧ A.thin ≠ 0 ∧
    npst = n_pst A.n_iter A.n_burnin A.thin ∧ p = beta_mrg.length ∧
    phi_updt = A.phi.isNone ∧
    s0.beta = zeros p ∧ s0.psi = ones p ∧ s0.sigma = 1 ∧
    s0.phi = (if !A.phi.isNone then some 1 else A.phi) ∧ s0.arma = ar ∧
    acc0 = { beta_est := zeros p, psi_est := zeros p, sigma_est := 0, phi_est := 0 } := by
  simp only [setup, bind_ok_iff, orThrow_ok_iff] at h
  obtain ⟨bm, hbm, mf, hmf, h⟩ := h
  split at h
  · simp [throw, throwThe, MonadExceptOf.throw, bind, Except.bind] at h
  · rename_i hthin
    simp only [bind_ok_iff, pure, Except.pure] at h
    obtain ⟨_, -, h⟩ := h
    injection h with h
    simp only [Prod.mk.injEq] at h
    obtain ⟨rfl, rfl, rfl, rfl, rfl, rfl, rfl⟩ := h
    exact ⟨hbm, hmf, hthin, rfl, rfl, rfl, rfl, rfl, rfl, rfl, rfl, rfl⟩

end RunLemmas

section VariantCount

variable {α : Type}

theorem n_variants_eq (A : Args α) (beta_mrg : List α) (h : A.sumstats.get? 1 = some beta_mrg) :
    n_variants A = beta_mrg.length := by
  unfold n_variants
  rw [List.getD_eq_getElem?_getD, ← List.get?_eq_getElem?, h]
  rfl

end VariantCount

section PosteriorMean

variable {ρ σ α : Type} [LinearOrderedField α]

/-- What a successful `run_loop` did, in terms of the chain of snapshots. -/
theorem run_loop_ok (L : Libs ρ σ α) (gig : α → α → α → Option α) (ar : σ) (A : Args α)
    (maf : List α) (s : SamplerState ρ σ α) (acc : Posterior α) (ht : 0 ≤ A.thin)
    (hrun : run_loop L gig ar A = .ok (maf, s, acc)) :
    ∃ (beta_mrg : List α) (s0 : SamplerState ρ σ α) (snaps : List (SamplerState ρ σ α))
      (phis : List α),
      A.sumstats.get? 1 = some beta_mrg ∧ A.sumstats.get? 2 = some maf ∧ A.thin ≠ 0 ∧
      s0.phi = (if !A.phi.isNone then some 1 else A.phi) ∧
      snapshots (gibbs_step L gig A beta_mrg beta_mrg.length A.phi.isNone) A.n_iter.toNat s0
        = .ok snaps ∧
      run_snapshots L gig ar A = .ok snaps ∧
      s = snaps.getLastD s0 ∧
      (∀ t ∈ snaps, t.beta.length = beta_mrg.length ∧ t.psi.length = beta_mrg.length) ∧
      (select_retained A.n_burnin A.thin 1 snaps).map (fun t => t.phi) = phis.map some ∧
      acc.beta_est = ((select_retained A.n_burnin A.thin 1 snaps).map (fun t => t.beta)).foldl
        (fun e v => vadd e (v.map (fun u => u / (n_pst A.n_iter A.n_burnin A.thin : α))))
        (zeros beta_mrg.length) ∧
      acc.psi_est = ((select_retained A.n_burnin A.thin 1 snaps).map (fun t => t.psi)).foldl
        (fun e v => vadd e (v.map (fun u => u / (n_pst A.n_iter A.n_burnin A.thin : α))))
        (zeros beta_mrg.length) ∧
      acc.sigma_est = (((select_retained A.n_burnin A.thin 1 snaps).map (fun t => t.sigma)).map
        (fun u => u / (n_pst A.n_iter A.n_burnin A.thin : α))).sum ∧
      acc.phi_est = (phis.map (fun u => u / (n_pst A.n_iter A.n_burnin A.thin : α))).sum := by
  simp only [run_loop, bind_ok_iff, pure, Except.pure] at hrun
  obtain ⟨⟨beta_mrg, maf1, npst, p, phi_updt, s0, acc0⟩, hsetup, ⟨s1, acc1⟩, hloop, h⟩ := hrun
  injection h with h
  simp only [Prod.mk.injEq] at h
  obtain ⟨rfl, rfl, rfl⟩ := h
  obtain ⟨hbm, hmf, hthin, rfl, rfl, rfl, hb0, hp0, -, hphi0, -, rfl⟩ :=
    setup_ok L ar A _ _ _ _ _ _ _ hsetup
  obtain ⟨snaps, phis, hsn, hlast, hphi, hb, hp, hs, hf⟩ :=
    mcmc_loop_snapshots L gig A beta_mrg beta_mrg.length (n_pst A.n_iter A.n_burnin A.thin)
      A.phi.isNone ht A.n_iter.toNat 1 s0 s1 _ acc1 (by omega) hloop
  have hinv := snapshots_invariant (gibbs_step L gig A beta_mrg beta_mrg.length A.phi.isNone)
    (fun t => t.beta.length = beta_mrg.length ∧ t.psi.length = beta_mrg.length)
    (by
      intro t t1 ⟨h1, h2⟩ hstep
      obtain ⟨h3, h4⟩ := gibbs_step_lengths L gig A beta_mrg _ _ t t1 hstep
      exact ⟨by rw [h3, h1], by rw [h4, h1, h2, min_self]⟩)
    A.n_iter.toNat s0 snaps ⟨by simp [hb0, zeros], by simp [hp0, ones]⟩ hsn
  refine ⟨beta_mrg, s0, snaps, phis, hbm, hmf, hthin, hphi0, hsn, ?_, hlast, hinv, hphi, hb, hp,
    ?_, ?_⟩
  · simp only [run_snapshots, hsetup, bind, Except.bind]
    exact hsn
  · simpa using hs
  · simpa using hf

/-- C1: for `n_iter > n_burnin ≥ 0`, `thin ≥ 1` and `n_iter - n_burnin` a positive
multiple of `thin`, after the loop of `prs_cs_mcmc` each of `beta_est`, `psi_est`,
`sigma_est`, `phi_est` is the arithmetic mean of `beta`, `psi`, `sigma`, `phi` at the
end of exactly the iterations `itr` in `1 .. n_iter` with `itr > n_burnin` and
`itr mod thin = 0` (there are `n_pst` of them). -/
theorem posterior_is_mean_of_retained (L : Libs ρ σ α) (gig : α → α → α → Option α) (ar : σ)
    (A : Args α) (h0 : 0 ≤ A.n_burnin) (h1 : A.n_burnin < A.n_iter) (h2 : 1 ≤ A.thin)
    (h3 : A.thin ∣ A.n_iter - A.n_burnin)
    (maf : List α) (s : SamplerState ρ σ α) (acc : Posterior α)
    (hrun : run_loop L gig ar A = .ok (maf, s, acc)) :
    ∃ (snaps : List (SamplerState ρ σ α)) (phis : List α),
      run_snapshots L gig ar A = .ok snaps ∧ snaps.length = A.n_iter.toNat ∧
      ((select_retained A.n_burnin A.thin 1 snaps).length : Int)
        = n_pst A.n_iter A.n_burnin A.thin ∧
      0 < (select_retained A.n_burnin A.thin 1 snaps).length ∧
      (select_retained A.n_burnin A.thin 1 snaps).map (fun t => t.phi) = phis.map some ∧
      acc.beta_est = vecMean (n_variants A)
        ((select_retained A.n_burnin A.thin 1 snaps).map (fun t => t.beta)) ∧
      acc.psi_est = vecMean (n_variants A)
        ((select_retained A.n_burnin A.thin 1 snaps).map (fun t => t.psi)) ∧
      acc.sigma_est = mean ((select_retained A.n_burnin A.thin 1 snaps).map (fun t => t.sigma)) ∧
      acc.phi_est = mean phis := by
  obtain ⟨beta_mrg, s0, snaps, phis, hbm, -, -, -, hsn, hrs, -, hinv, hphi, hb, hp, hs, hf⟩ :=
    run_loop_ok L gig ar A maf s acc (by omega) hrun
  have hlen := snapshots_length _ _ _ _ hsn
  have hcount : ((select_retained A.n_burnin A.thin 1 snaps).length : Int)
      = n_pst A.n_iter A.n_burnin A.thin := by
    rw [select_retained_length A.n_burnin A.thin (by omega) snaps 1 (by omega), hlen]
    exact n_retained_eq_n_pst A.n_iter A.n_burnin A.thin h0 h1 h2 h3
  have hcast : (n_pst A.n_iter A.n_burnin A.thin : α)
      = ((select_retained A.n_burnin A.thin 1 snaps).length : α) := by
    rw [← hcount]; simp
  have hpos : 0 < (select_retained A.n_burnin A.thin 1 snaps).length := by
    have hk : 0 < n_pst A.n_iter A.n_burnin A.thin := by
      obtain ⟨k, hk⟩ := h3
      unfold n_pst
      rw [hk, Int.tdiv_eq_ediv_of_dvd (Dvd.intro k rfl), Int.mul_ediv_cancel_left _ (by omega)]
      by_contra hneg
      have : A.thin * k ≤ 0 := mul_nonpos_of_nonneg_of_nonpos (by omega) (by omega)
      omega
    omega
  have hphilen : phis.length = (select_retained A.n_burnin A.thin 1 snaps).length := by
    have := congrArg List.length hphi
    simpa using this.symm
  have hnv := n_variants_eq A beta_mrg hbm
  refine ⟨snaps, phis, hrs, hlen, hcount, hpos, hphi, ?_, ?_, ?_, ?_⟩
  · rw [hb, hnv]
    apply foldl_vadd_eq_vecMean
    · intro v hv
      obtain ⟨t, ht, rfl⟩ := List.mem_map.mp hv
      exact (hinv t (select_retained_subset _ _ _ _ t ht)).1
    · rw [hcast]; simp
  · rw [hp, hnv]
    apply foldl_vadd_eq_vecMean
    · intro v hv
      obtain ⟨t, ht, rfl⟩ := List.mem_map.mp hv
      exact (hinv t (select_retained_subset _ _ _ _ t ht)).2
    · rw [hcast]; simp
  · rw [hs, sum_map_div, hcast]
    simp [mean]
  · rw [hf, sum_map_div, hcast, ← hphilen]
    rfl

end PosteriorMean

/-- C1 on the scenario of the specification (`n_iter = 20`, `n_burnin = 10`,
`thin = 1`, fixed `phi`), run with the stand-in libraries on `ℚ`. -/
theorem posterior_is_mean_of_retained_witness :
    (resultOf (run_loop demoLibs demoGig 0 (scenario (some 1)))).isSome = true ∧
    ∃ (snaps : List (SamplerState Nat Nat ℚ)) (phis : List ℚ)
      (acc : Posterior ℚ),
      (resultOf (run_loop demoLibs demoGig 0 (scenario (some 1)))).map (fun r => r.2.2)
        = some acc ∧
      run_snapshots demoLibs demoGig 0 (scenario (some 1)) = .ok snaps ∧
      snaps.length = 20 ∧
      (select_retained 10 1 1 snaps).length = 10 ∧
      (select_retained 10 1 1 snaps).map (fun t => t.phi) = phis.map some ∧
      acc.beta_est = vecMean 1 ((select_retained 10 1 1 snaps).map (fun t => t.beta)) ∧
      acc.psi_est = vecMean 1 ((select_retained 10 1 1 snaps).map (fun t => t.psi)) ∧
      acc.sigma_est = mean ((select_retained 10 1 1 snaps).map (fun t => t.sigma)) ∧
      acc.phi_est = mean phis := by
  have hsome : (resultOf (run_loop demoLibs demoGig 0 (scenario (some 1)))).isSome = true := by
    decide!
  refine ⟨hsome, ?_⟩
  cases hrun : run_loop demoLibs demoGig 0 (scenario (some 1)) with
  | error e => rw [hrun] at hsome; simp [resultOf] at hsome
  | ok r =>
    obtain ⟨maf, s, acc⟩ := r
    obtain ⟨snaps, phis, h1, h2, h3, -, h5, h6, h7, h8, h9⟩ :=
      posterior_is_mean_of_retained demoLibs demoGig 0 (scenario (some 1))
        (by decide) (by decide) (by decide) (by decide) maf s acc hrun
    have hnp : n_pst (scenario (some 1)).n_iter (scenario (some 1)).n_burnin
        (scenario (some 1)).thin = 10 := by decide
    rw [hnp] at h3
    exact ⟨snaps, phis, acc, rfl, h1, h2, by exact_mod_cast h3, h5, h6, h7, h8, h9⟩

section PhiPointer

variable {ρ σ α : Type} [LinearOrderedField α]

/-- What a successful call of `prs_cs_mcmc` returned, in terms of `run_loop`. -/
theorem prs_cs_mcmc_ok (L : Libs ρ σ α) (gig : α → α → α → Option α) (ar : σ) (A : Args α)
    (out : Posterior α) (cell : Option α) (ar1 : σ)
    (h : prs_cs_mcmc L gig ar A = .ok (out, cell, ar1)) :
    ∃ (maf : List α) (s : SamplerState ρ σ α) (acc : Posterior α),
      run_loop L gig ar A = .ok (maf, s, acc) ∧
      rescale L A.beta_std maf acc.beta_est = .ok out.beta_est ∧
      out.psi_est = acc.psi_est ∧ out.sigma_est = acc.sigma_est ∧
      out.phi_est = acc.phi_est ∧ cell = s.phi ∧ ar1 = s.arma := by
  simp only [prs_cs_mcmc, bind_ok_iff, pure, Except.pure] at h
  obtain ⟨⟨maf, s, acc⟩, hrun, be, hres, h⟩ := h
  injection h with h
  simp only [Prod.mk.injEq] at h
  obtain ⟨rfl, rfl, rfl⟩ := h
  exact ⟨maf, s, acc, hrun, hres, rfl, rfl, rfl, rfl, rfl⟩

/-- Under the valid configuration the retained snapshots are `n_pst > 0` many. -/
theorem retained_snapshots_count {S : Type} (n_iter n_burnin thin : Int) (h0 : 0 ≤ n_burnin)
    (h1 : n_burnin < n_iter) (h2 : 1 ≤ thin) (h3 : thin ∣ n_iter - n_burnin)
    (snaps : List S) (hlen : snaps.length = n_iter.toNat) :
    ((select_retained n_burnin thin 1 snaps).length : Int) = n_pst n_iter n_burnin thin ∧
    0 < (select_retained n_burnin thin 1 snaps).length := by
  have hcount : ((select_retained n_burnin thin 1 snaps).length : Int)
      = n_pst n_iter n_burnin thin := by
    rw [select_retained_length n_burnin thin (by omega) snaps 1 (by omega), hlen]
    exact n_retained_eq_n_pst n_iter n_burnin thin h0 h1 h2 h3
  refine ⟨hcount, ?_⟩
  have hk : 0 < n_pst n_iter n_burnin thin := by
    obtain ⟨k, hk⟩ := h3
    unfold n_pst
    rw [hk, Int.tdiv_eq_ediv_of_dvd (Dvd.intro k rfl), Int.mul_ediv_cancel_left _ (by omega)]
    by_contra hneg
    have : thin * k ≤ 0 := mul_nonpos_of_nonneg_of_nonpos (by omega) (by omega)
    omega
  omega

theorem getLastD_prop {S : Type} (P : S → Prop) :
    ∀ (l : List S) (a : S), P a → (∀ t ∈ l, P t) → P (l.getLastD a) := by
  intro l
  induction l with
  | nil => intro a ha _; simpa using ha
  | cons b l ih =>
    intro a _ h
    rw [List.getLastD_cons]
    exact ih b (h b (List.mem_cons_self _ _)) (fun t ht => h t (List.mem_cons_of_mem _ ht))

theorem sum_map_div_of_all_one (phis : List α) (c : α) (h : ∀ x ∈ phis, x = 1) :
    (phis.map (fun u => u / c)).sum = (phis.length : α) / c := by
  induction phis with
  | nil => simp
  | cons x rest ih =>
    have hx : x = 1 := h x (List.mem_cons_self _ _)
    have hrest := ih (fun y hy => h y (List.mem_cons_of_mem _ hy))
    simp only [List.map_cons, List.sum_cons, hrest, hx, List.length_cons, Nat.cast_succ]
    ring

/-- C3 (what the code does instead): when the caller passes a cell holding any
`phi0`, line 184 stores `1.0` in it, so under the valid configuration the
caller's cell ends as `1` and `phi_est` is `1`, whatever `phi0` was. -/
theorem supplied_phi_is_overwritten (L : Libs ρ σ α) (gig : α → α → α → Option α) (ar : σ)
    (A : Args α) (phi0 : α) (hphi : A.phi = some phi0)
    (h0 : 0 ≤ A.n_burnin) (h1 : A.n_burnin < A.n_iter) (h2 : 1 ≤ A.thin)
    (h3 : A.thin ∣ A.n_iter - A.n_burnin)
    (out : Posterior α) (cell : Option α) (ar1 : σ)
    (hrun : prs_cs_mcmc L gig ar A = .ok (out, cell, ar1)) :
    cell = some 1 ∧ out.phi_est = 1 := by
  obtain ⟨maf, s, acc, hloop, -, -, -, hpe, hcell, -⟩ :=
    prs_cs_mcmc_ok L gig ar A out cell ar1 hrun
  obtain ⟨beta_mrg, s0, snaps, phis, -, -, -, hphi0, hsn, -, hlast, -, hphis, -, -, -, hf⟩ :=
    run_loop_ok L gig ar A maf s acc (by omega) hloop
  have hnone : A.phi.isNone = false := by rw [hphi]; rfl
  rw [hnone] at hsn
  have hs0 : s0.phi = some 1 := by rw [hphi0, hnone]; rfl
  have hinv := snapshots_invariant (gibbs_step L gig A beta_mrg beta_mrg.length false)
    (fun t => t.phi = some 1)
    (fun t t1 ht hstep => by
      show t1.phi = some 1
      rw [gibbs_step_phi_fixed L gig A beta_mrg _ t t1 hstep]; exact ht)
    A.n_iter.toNat s0 snaps hs0 hsn
  have hsphi : s.phi = some 1 := by
    rw [hlast]
    exact getLastD_prop (fun t => t.phi = some 1) snaps s0 hs0 hinv
  have hlen := snapshots_length _ _ _ _ hsn
  obtain ⟨hcount, hpos⟩ := retained_snapshots_count A.n_iter A.n_burnin A.thin h0 h1 h2 h3
    snaps hlen
  have hall : ∀ x ∈ phis, x = 1 := by
    intro x hx
    have hmem : some x ∈ (select_retained A.n_burnin A.thin 1 snaps).map (fun t => t.phi) := by
      rw [hphis]; exact List.mem_map_of_mem _ hx
    obtain ⟨t, ht, hteq⟩ := List.mem_map.mp hmem
    have := hinv t (select_retained_subset _ _ _ _ t ht)
    rw [this] at hteq
    exact (Option.some.inj hteq).symm
  have hphilen : phis.length = (select_retained A.n_burnin A.thin 1 snaps).length := by
    have := congrArg List.length hphis
    simpa using this.symm
  refine ⟨by rw [hcell, hsphi], ?_⟩
  rw [hpe, hf, sum_map_div_of_all_one phis _ hall, hphilen, ← hcount]
  have hne : ((select_retained A.n_burnin A.thin 1 snaps).length : α) ≠ 0 := by
    exact_mod_cast (Nat.pos_iff_ne_zero.mp hpos)
  simp [hne]

/-- C4 (what the code does instead): with `phi` a null pointer and at least one
iteration requested, no call of `prs_cs_mcmc` returns a result: the first sweep
reads through the null pointer (unless an earlier fault stops it). -/
theorem null_phi_never_returns (L : Libs ρ σ α) (gig : α → α → α → Option α) (ar : σ)
    (A : Args α) (hphi : A.phi = none) (hn : 0 < A.n_iter)
    (r : Posterior α × Option α × σ) : prs_cs_mcmc L gig ar A ≠ .ok r := by
  obtain ⟨out, cell, ar1⟩ := r
  intro hrun
  obtain ⟨maf, s, acc, hloop, -⟩ := prs_cs_mcmc_ok L gig ar A out cell ar1 hrun
  simp only [run_loop, bind_ok_iff, pure, Except.pure] at hloop
  obtain ⟨⟨beta_mrg, maf1, npst, p, phi_updt, s0, acc0⟩, hsetup, ⟨s1, acc1⟩, hl, -⟩ := hloop
  obtain ⟨-, -, -, -, -, hpu, -, -, -, hphi0, -, -⟩ := setup_ok L ar A _ _ _ _ _ _ _ hsetup
  have hnone : A.phi.isNone = true := by rw [hphi]; rfl
  rw [hnone] at hpu
  subst hpu
  have hs0 : s0.phi = none := by rw [hphi0, hnone, hphi]; rfl
  obtain ⟨k, hk⟩ : ∃ k, A.n_iter.toNat = k + 1 := ⟨A.n_iter.toNat - 1, by omega⟩
  rw [iterations, hk, iterFrom, mcmc_loop, bind_ok_iff] at hl
  obtain ⟨t, hstep, -⟩ := hl
  exact gibbs_step_null L gig A beta_mrg p s0 t hs0 hstep

end PhiPointer

/-- C3 at the failing input: the scenario of the specification with the fixed
value `phi = 2`.  The run returns `phi_est = 1` and leaves `1` in the caller's
cell. -/
theorem supplied_phi_is_overwritten_witness :
    (resultOf (prs_cs_mcmc demoLibs demoGig 0 (scenario (some 2)))).map
        (fun r => (r.1.phi_est, r.2.1)) = some (1, some 1) := by
  cases hrun : prs_cs_mcmc demoLibs demoGig 0 (scenario (some 2)) with
  | error e =>
    have hsome : (resultOf (prs_cs_mcmc demoLibs demoGig 0 (scenario (some 2)))).isSome
        = true := by decide!
    rw [hrun] at hsome
    simp [resultOf] at hsome
  | ok r =>
    obtain ⟨out, cell, ar1⟩ := r
    obtain ⟨h1, h2⟩ := supplied_phi_is_overwritten demoLibs demoGig 0 (scenario (some 2)) 2 rfl
      (by decide) (by decide) (by decide) (by decide) out cell ar1 hrun
    simp [resultOf, h1, h2]

/-- C4 at the failing input: the scenario of the specification with `phi`
absent.  The run stops in the first sweep on the null pointer. -/
theorem null_phi_never_returns_witness :
    faultOf (prs_cs_mcmc demoLibs demoGig 0 (scenario none)) = some Fault.nullDeref ∧
    ∀ r, prs_cs_mcmc demoLibs demoGig 0 (scenario none) ≠ .ok r :=
  ⟨by decide!, null_phi_never_returns demoLibs demoGig 0 (scenario none) rfl (by decide)⟩

section NoValidation

variable {ρ σ α : Type} [LinearOrderedField α]

theorem mem_iterFrom (k : Nat) : ∀ (itr j : Int), j ∈ iterFrom itr k → itr ≤ j ∧ j < itr + k := by
  induction k with
  | zero => intro itr j hj; simp [iterFrom] at hj
  | succ k ih =>
    intro itr j hj
    rw [iterFrom] at hj
    rcases List.mem_cons.mp hj with rfl | hj
    · constructor <;> push_cast <;> omega
    · have := ih (itr + 1) j hj
      constructor <;> push_cast <;> omega

/-- A loop none of whose iterations passes the retention test runs every sweep
and leaves the accumulators as they were. -/
theorem mcmc_loop_no_retain (L : Libs ρ σ α) (gig : α → α → α → Option α) (A : Args α)
    (beta_mrg : List α) (p : Nat) (npst : Int) (phi_updt : Bool) :
    ∀ (its : List Int) (s s1 : SamplerState ρ σ α) (acc acc1 : Posterior α),
      (∀ j ∈ its, retain A.n_burnin A.thin j = false) →
      mcmc_loop L gig A beta_mrg p npst phi_updt its (s, acc) = .ok (s1, acc1) →
      acc1 = acc ∧ ∃ snaps, snapshots (gibbs_step L gig A beta_mrg p phi_updt) its.length s
        = .ok snaps := by
  intro its
  induction its with
  | nil =>
    intro s s1 acc acc1 _ h
    simp only [mcmc_loop] at h
    injection h with h
    injection h with h1 h2
    exact ⟨h2.symm, [], rfl⟩
  | cons itr rest ih =>
    intro s s1 acc acc1 hret h
    rw [mcmc_loop, bind_ok_iff] at h
    obtain ⟨t, hstep, h⟩ := h
    have hr : retain A.n_burnin A.thin itr = false := hret itr (List.mem_cons_self _ _)
    simp only [hr, Bool.false_eq_true, if_false, bind_ok_iff, pure, Except.pure] at h
    obtain ⟨acc2, hacc, hrest⟩ := h
    injection hacc with hacc
    subst hacc
    obtain ⟨hacc1, snaps, hsn⟩ :=
      ih t s1 acc acc1 (fun j hj => hret j (List.mem_cons_of_mem _ hj)) hrest
    refine ⟨hacc1, t :: snaps, ?_⟩
    simp only [List.length_cons, snapshots, hstep, hsn, bind, Except.bind, pure, Except.pure]

theorem rescale_zeros (L : Libs ρ σ α) (beta_std : Bool) (maf : List α) (p : Nat)
    (be : List α) (h : rescale L beta_std maf (zeros p) = .ok be) : be = zeros p := by
  unfold rescale at h
  split at h
  · split at h
    · rename_i hlen
      injection h with h
      subst h
      apply List.ext_getElem
      · simp [zeros] at hlen ⊢
        omega
      · intro n h1 h2
        simp [zeros]
    · cases h
  · injection h with h
    exact h.symm

/-- C5, amended: `prs_cs_mcmc` makes no check of its configuration.  With
`n_iter ≤ n_burnin` a call that returns has executed all `n_iter` sweeps of the
loop, retained none of them, and returns the zero-initialised accumulators as its
estimate. -/
theorem unchecked_config_returns_zeros (L : Libs ρ σ α) (gig : α → α → α → Option α) (ar : σ)
    (A : Args α) (h : A.n_iter ≤ A.n_burnin)
    (out : Posterior α) (cell : Option α) (ar1 : σ)
    (hrun : prs_cs_mcmc L gig ar A = .ok (out, cell, ar1)) :
    (∃ snaps, run_snapshots L gig ar A = .ok snaps ∧ snaps.length = A.n_iter.toNat) ∧
    out.beta_est = zeros (n_variants A) ∧ out.psi_est = zeros (n_variants A) ∧
    out.sigma_est = 0 ∧ out.phi_est = 0 := by
  obtain ⟨maf, s, acc, hloop, hres, hpsi, hsig, hphi, -, -⟩ :=
    prs_cs_mcmc_ok L gig ar A out cell ar1 hrun
  simp only [run_loop, bind_ok_iff, pure, Except.pure] at hloop
  obtain ⟨⟨beta_mrg, maf1, npst, p, phi_updt, s0, acc0⟩, hsetup, ⟨s1, acc1⟩, hl, hh⟩ := hloop
  injection hh with hh
  simp only [Prod.mk.injEq] at hh
  obtain ⟨rfl, rfl, rfl⟩ := hh
  obtain ⟨hbm, -, -, -, rfl, -, -, -, -, -, -, rfl⟩ := setup_ok L ar A _ _ _ _ _ _ _ hsetup
  have hnone : ∀ j ∈ iterations A.n_iter, retain A.n_burnin A.thin j = false := by
    intro j hj
    have hj1 := mem_iterFrom _ _ _ hj
    have hlt : ¬ (j > A.n_burnin) := by omega
    simp [retain, hlt]
  obtain ⟨hacc, snaps, hsn⟩ := mcmc_loop_no_retain L gig A beta_mrg _ npst phi_updt
    (iterations A.n_iter) s0 _ _ _ hnone hl
  have hitlen : (iterations A.n_iter).length = A.n_iter.toNat := by
    have : ∀ (k : Nat) (a : Int), (iterFrom a k).length = k := by
      intro k
      induction k with
      | zero => intro a; rfl
      | succ k ih => intro a; simp [iterFrom, ih]
    exact this _ _
  rw [hitlen] at hsn
  have hnv := n_variants_eq A beta_mrg hbm
  subst hacc
  refine ⟨⟨snaps, ?_, snapshots_length _ _ _ _ hsn⟩, ?_, ?_, ?_, ?_⟩
  · simp only [run_snapshots, hsetup, bind, Except.bind]
    exact hsn
  · rw [hnv]; exact rescale_zeros L A.beta_std _ _ _ hres
  · rw [hnv, hpsi]
  · rw [hsig]
  · rw [hphi]

end NoValidation

/-- C5 fails on the code: none of the three configurations is rejected.  With
`n_iter = 5 ≤ n_burnin = 10` the run executes its 5 sweeps (Armadillo's generator
has moved 5 draws on) and returns an all-zero estimate; with `thin = -1` and with
two variants against one block of size 1 it returns an estimate as well. -/
theorem config_not_rejected :
    (resultOf (prs_cs_mcmc demoLibs demoGig 0
        { scenario (some 1) with n_iter := 5, n_burnin := 10 })).map
      (fun r => (r.1.beta_est, r.1.psi_est, r.1.sigma_est, r.1.phi_est, r.2.2))
      = some ([0], [0], 0, 0, 5) ∧
    (resultOf (prs_cs_mcmc demoLibs demoGig 0 { scenario (some 1) with thin := -1 })).isSome
      = true ∧
    (resultOf (prs_cs_mcmc demoLibs demoGig 0
        { scenario (some 1) with sumstats := [[], [1 / 10, 1 / 5], [3 / 10, 2 / 5]] })).isSome
      = true := by
  refine ⟨?_, ?_, ?_⟩ <;> decide!

/-- C5 amended, on a concrete run: `n_iter = n_burnin = 3`. -/
theorem unchecked_config_returns_zeros_witness :
    (resultOf (prs_cs_mcmc demoLibs demoGig 0
        { scenario (some 1) with n_iter := 3, n_burnin := 3 })).map (fun r => r.1.sigma_est)
      = some 0 := by
  cases hrun : prs_cs_mcmc demoLibs demoGig 0
      { scenario (some 1) with n_iter := 3, n_burnin := 3 } with
  | error e =>
    have hsome : (resultOf (prs_cs_mcmc demoLibs demoGig 0
        { scenario (some 1) with n_iter := 3, n_burnin := 3 })).isSome = true := by decide!
    rw [hrun] at hsome
    simp [resultOf] at hsome
  | ok r =>
    obtain ⟨out, cell, ar1⟩ := r
    obtain ⟨-, -, -, h4, -⟩ := unchecked_config_returns_zeros demoLibs demoGig 0
      { scenario (some 1) with n_iter := 3, n_burnin := 3 } (by decide) out cell ar1 hrun
    simp [resultOf, h4]

section SamplerLemmas

variable {ρ σ : Type}

theorem gig_lambda_nonneg (p : ℝ) : 0 ≤ gig_lambda p := by
  unfold gig_lambda
  split <;> linarith

/-- The transformation of lines 132-137 maps every accepted candidate to a
positive number when `a` and `b` are positive. -/
theorem gig_transform_pos (p a b rnd : ℝ) (ha : 0 < a) (hb : 0 < b) :
    0 < gig_transform p a b rnd := by
  have homega : 0 < Real.sqrt (a * b) := Real.sqrt_pos.mpr (mul_pos ha hb)
  have hratio : 0 ≤ gig_lambda p / Real.sqrt (a * b) :=
    div_nonneg (gig_lambda_nonneg p) homega.le
  have hroot : 0 < Real.sqrt (1 + (gig_lambda p / Real.sqrt (a * b)) ^ 2) :=
    Real.sqrt_pos.mpr (by positivity)
  have hrnd1 : 0 < Real.exp rnd * (gig_lambda p / Real.sqrt (a * b)
      + Real.sqrt (1 + (gig_lambda p / Real.sqrt (a * b)) ^ 2)) :=
    mul_pos (Real.exp_pos rnd) (by linarith)
  have hscale : 0 < Real.sqrt (a / b) := Real.sqrt_pos.mpr (div_pos ha hb)
  unfold gig_transform
  simp only
  split
  · exact div_pos (one_div_pos.mpr hrnd1) hscale
  · exact div_pos hrnd1 hscale

theorem gigrnd_eq_some (L : Libs ρ σ ℝ) (fuel : Nat) (p a b v : ℝ)
    (h : gigrnd L fuel p a b = some v) :
    ∃ rnd, gig_accepted L fuel p a b = some rnd ∧ v = gig_transform p a b rnd := by
  unfold gigrnd at h
  cases hacc : gig_accepted L fuel p a b with
  | none => rw [hacc] at h; simp at h
  | some rnd =>
    rw [hacc] at h
    simp only [Option.map_some'] at h
    exact ⟨rnd, rfl, (Option.some.inj h).symm⟩

/-- Every value `gigrnd` returns for positive `a`, `b` is positive. -/
theorem gigrnd_some_pos (L : Libs ρ σ ℝ) (fuel : Nat) (p a b v : ℝ) (ha : 0 < a) (hb : 0 < b)
    (h : gigrnd L fuel p a b = some v) : 0 < v := by
  obtain ⟨rnd, -, rfl⟩ := gigrnd_eq_some L fuel p a b v h
  exact gig_transform_pos p a b rnd ha hb

/-- A round whose third draw `W` is `0` accepts its candidate. -/
theorem rejection_loop_accepts_zero (L : Libs ρ σ ℝ) (E : Envelope) (fuel : Nat) (rng : ρ)
    (hW : (L.gsl_rng_uniform (L.gsl_rng_uniform (L.gsl_rng_uniform rng).2).2).1 = 0) :
    rejection_loop L E (fuel + 1) rng
      = some (candidate E (L.gsl_rng_uniform rng).1
          (L.gsl_rng_uniform (L.gsl_rng_uniform rng).2).1) := by
  have hacc : accepts E (candidate E (L.gsl_rng_uniform rng).1
      (L.gsl_rng_uniform (L.gsl_rng_uniform rng).2).1) 0 := by
    show 0 * _ ≤ _
    rw [zero_mul]
    exact (Real.exp_pos _).le
  rw [rejection_loop]
  simp only [hW]
  rw [if_pos hacc]

end SamplerLemmas

section SamplerTheorems

variable {ρ σ : Type}

/-- C10: for all real `x`, `alpha`, `lambda`, `dpsi(x, alpha, lambda)` is the
derivative in `x` of `psi(x, alpha, lambda)`. -/
theorem dpsi_is_derivative_of_psi (x alpha lambda : ℝ) :
    HasDerivAt (fun y => psi y alpha lambda) (dpsi x alpha lambda) x := by
  have hcosh := ((Real.hasDerivAt_cosh x).sub_const 1).const_mul (-alpha)
  have hexp := (((Real.hasDerivAt_exp x).sub (hasDerivAt_id x)).sub_const 1).const_mul lambda
  have h := hcosh.sub hexp
  unfold dpsi
  unfold psi
  convert h using 1

/-- C8: for every shape `p`, every `a > 0`, `b > 0` and every sequence of uniform
draws on which the rejection loop accepts, the value returned by `gigrnd(p, a, b)`
is strictly positive (a real number, hence finite). -/
theorem gigrnd_pos (L : Libs ρ σ ℝ) (fuel : Nat) (p a b v : ℝ) (ha : 0 < a) (hb : 0 < b)
    (h : gigrnd L fuel p a b = some v) : 0 < v :=
  gigrnd_some_pos L fuel p a b v ha hb h

/-- C9: for `lambda > 0`, `a > 0`, `b > 0` and the same uniform draws,
`gigrnd(-lambda, a, b)` builds the envelope of `gigrnd(lambda, b, a)`, accepts the
same candidate, and returns the reciprocal of its result. -/
theorem gigrnd_neg_shape_reciprocal (L : Libs ρ σ ℝ) (fuel : Nat) (lam a b : ℝ)
    (hl : 0 < lam) (ha : 0 < a) (hb : 0 < b) :
    envelope (gig_lambda (-lam)) (Real.sqrt (a * b))
      = envelope (gig_lambda lam) (Real.sqrt (b * a)) ∧
    gig_accepted L fuel (-lam) a b = gig_accepted L fuel lam b a ∧
    gigrnd L fuel (-lam) a b = (gigrnd L fuel lam b a).map (fun v => 1 / v) := by
  have hneg : -lam < 0 := by linarith
  have hpos : ¬ (lam < 0) := by linarith
  have hlam : gig_lambda (-lam) = gig_lambda lam := by
    simp [gig_lambda, hneg, hpos]
  have hab : a * b = b * a := mul_comm a b
  have hacc : gig_accepted L fuel (-lam) a b = gig_accepted L fuel lam b a := by
    unfold gig_accepted
    rw [hlam, hab]
  refine ⟨by rw [hlam, hab], hacc, ?_⟩
  unfold gigrnd
  rw [hacc, Option.map_map]
  congr 1
  funext rnd
  have hsq : Real.sqrt (b / a) = (Real.sqrt (a / b))⁻¹ := by
    rw [← Real.sqrt_inv, inv_div]
  simp only [Function.comp, gig_transform, hlam, hab, if_pos hneg, if_neg hpos, hsq]
  have h1 := gig_transform_pos lam b a rnd hb ha
  have hs : 0 < Real.sqrt (a / b) := Real.sqrt_pos.mpr (div_pos ha hb)
  field_simp

end SamplerTheorems

section SamplerEvaluation

/-- Bounds on `e⁻¹`, `sinh 1` and `cosh 1` used to evaluate the envelope. -/
theorem hyperbolic_one_bounds :
    (1 : ℝ) / 3 < Real.exp (-1) ∧ Real.exp (-1) < 2 / 5 ∧ 1 < Real.sinh 1 ∧
    3 / 2 ≤ Real.cosh 1 ∧ Real.cosh 1 ≤ 3 ∧ Real.cosh 1 - Real.sinh 1 = Real.exp (-1) := by
  have h1 := Real.exp_one_gt_d9
  have h2 := Real.exp_one_lt_d9
  have hf : 0 < Real.exp (-1) := Real.exp_pos _
  have hmul : Real.exp 1 * Real.exp (-1) = 1 := by
    rw [← Real.exp_add]; simp
  have hlo : (1 : ℝ) / 3 < Real.exp (-1) := by nlinarith
  have hhi : Real.exp (-1) < 2 / 5 := by nlinarith
  have hs : Real.sinh 1 = (Real.exp 1 - Real.exp (-1)) / 2 := Real.sinh_eq 1
  have hc : Real.cosh 1 = (Real.exp 1 + Real.exp (-1)) / 2 := Real.cosh_eq 1
  refine ⟨hlo, hhi, ?_, ?_, ?_, ?_⟩
  · rw [hs]; linarith
  · rw [hc]; linarith
  · rw [hc]; linarith
  · rw [hs, hc]; ring

theorem breakpoint_t_one_zero : breakpoint_t 1 0 = 1 := by
  obtain ⟨-, -, -, hc1, hc2, -⟩ := hyperbolic_one_bounds
  have hx : -psi 1 1 0 = Real.cosh 1 - 1 := by simp [psi]
  unfold breakpoint_t
  simp only [hx]
  rw [if_neg (by linarith), if_pos ⟨by linarith, by linarith⟩]

theorem breakpoint_s_one_zero : breakpoint_s 1 0 = 1 := by
  obtain ⟨-, -, -, hc1, hc2, -⟩ := hyperbolic_one_bounds
  have hx : -psi (-1) 1 0 = Real.cosh 1 - 1 := by simp [psi]
  unfold breakpoint_s
  simp only [hx]
  rw [if_neg (by linarith), if_pos ⟨by linarith, by linarith⟩]

/-- The run of `gigrnd(0, 1, 1)` on the draws `U = 1/4`, `V = 1/2`, `W = 1/2`: the
central segment is chosen, the candidate `0` is accepted and the result is `1`. -/
theorem gigrnd_zero_one_one :
    gigrnd (streamLibs drawsQuarterHalf 0 1) 1 0 1 1 = some 1 := by
  obtain ⟨hf1, hf2, hs, hc1, hc2, hcs⟩ := hyperbolic_one_bounds
  have hS : 0 < Real.sinh 1 := by linarith
  have hT : 1 - 1 / Real.sinh 1 * (Real.cosh 1 - 1) = (1 - Real.exp (-1)) / Real.sinh 1 := by
    field_simp
    linarith
  have hE : envelope 0 1 =
      { alpha := 1, lambda := 0, t := 1, s := 1, eta := Real.cosh 1 - 1, zeta := Real.sinh 1,
        theta := Real.cosh 1 - 1, xi := Real.sinh 1, p_r := 1 / Real.sinh 1,
        r := 1 / Real.sinh 1, td := (1 - Real.exp (-1)) / Real.sinh 1,
        sd := (1 - Real.exp (-1)) / Real.sinh 1,
        q := (1 - Real.exp (-1)) / Real.sinh 1 + (1 - Real.exp (-1)) / Real.sinh 1 } := by
    have halpha : Real.sqrt ((1 : ℝ) ^ 2 + 0 ^ 2) - 0 = 1 := by norm_num
    unfold envelope
    simp only [halpha, breakpoint_t_one_zero, breakpoint_s_one_zero]
    simp only [psi, dpsi, Real.cosh_neg, Real.sinh_neg]
    simp only [neg_mul, one_mul, zero_mul, sub_zero, neg_neg, hT]
  have hcand : candidate (envelope 0 1) (1 / 4) (1 / 2) = 0 := by
    rw [hE]
    unfold candidate
    simp only
    have hden : 1 / Real.sinh 1 + ((1 - Real.exp (-1)) / Real.sinh 1
        + (1 - Real.exp (-1)) / Real.sinh 1) + 1 / Real.sinh 1
        = (4 - 2 * Real.exp (-1)) / Real.sinh 1 := by
      field_simp; ring
    have hnum : (1 - Real.exp (-1)) / Real.sinh 1 + (1 - Real.exp (-1)) / Real.sinh 1
        = (2 - 2 * Real.exp (-1)) / Real.sinh 1 := by
      field_simp; ring
    have hratio : (1 : ℝ) / 4 < (2 - 2 * Real.exp (-1)) / Real.sinh 1
        / ((4 - 2 * Real.exp (-1)) / Real.sinh 1) := by
      rw [div_div_div_cancel_right₀ (ne_of_gt hS), lt_div_iff₀ (by linarith)]
      linarith
    rw [hden, hnum, if_pos hratio]
    ring
  have hacc : accepts (envelope 0 1) 0 (1 / 2) := by
    rw [hE]
    unfold accepts g
    simp only
    have htd : 0 ≤ (1 - Real.exp (-1)) / Real.sinh 1 := div_nonneg (by linarith) hS.le
    rw [if_pos ⟨by linarith, htd⟩]
    simp [psi]
    norm_num
  have hloop : gig_accepted (streamLibs drawsQuarterHalf 0 1) 1 0 1 1 = some 0 := by
    unfold gig_accepted
    have hl : gig_lambda 0 = 0 := by simp [gig_lambda]
    have ho : Real.sqrt (1 * 1) = 1 := by norm_num
    rw [hl, ho, rejection_loop]
    simp only [streamLibs, drawsQuarterHalf]
    norm_num
    rw [hcand]
    exact if_pos hacc
  unfold gigrnd
  rw [hloop]
  simp [gig_transform, gig_lambda]

/-- C8 on a concrete run: `gigrnd(0, 1, 1)` with the draws `1/4, 1/2, 1/2` accepts
in the first round and returns `1 > 0`. -/
theorem gigrnd_pos_witness :
    gigrnd (streamLibs drawsQuarterHalf 0 1) 1 0 1 1 = some 1 ∧ (0 : ℝ) < 1 :=
  ⟨gigrnd_zero_one_one,
    gigrnd_pos (streamLibs drawsQuarterHalf 0 1) 1 0 1 1 1 one_pos one_pos gigrnd_zero_one_one⟩

/-- C9 on a concrete run: with `W = 0` in the first round both calls accept their
common candidate, and `gigrnd(-1, 3, 2)` returns the reciprocal of
`gigrnd(1, 2, 3)`. -/
theorem gigrnd_neg_shape_reciprocal_witness :
    ∃ v : ℝ, 0 < v ∧ gigrnd (streamLibs drawsAcceptAtOnce 0 1) 1 1 2 3 = some v ∧
      gigrnd (streamLibs drawsAcceptAtOnce 0 1) 1 (-1) 3 2 = some (1 / v) := by
  obtain ⟨-, -, h⟩ := gigrnd_neg_shape_reciprocal (streamLibs drawsAcceptAtOnce 0 1) 1 1 3 2
    one_pos (by norm_num) (by norm_num)
  have hW : ((streamLibs drawsAcceptAtOnce 0 1).gsl_rng_uniform
      ((streamLibs drawsAcceptAtOnce 0 1).gsl_rng_uniform
        ((streamLibs drawsAcceptAtOnce 0 1).gsl_rng_uniform
          (streamLibs drawsAcceptAtOnce 0 1).gsl_rng_alloc).2).2).1 = 0 := by
    simp [streamLibs, drawsAcceptAtOnce]
  have hacc := rejection_loop_accepts_zero (streamLibs drawsAcceptAtOnce 0 1)
    (envelope (gig_lambda 1) (Real.sqrt (2 * 3))) 0 _ hW
  have hsome : ∃ v, gigrnd (streamLibs drawsAcceptAtOnce 0 1) 1 1 2 3 = some v := by
    unfold gigrnd gig_accepted
    rw [hacc]
    exact ⟨_, rfl⟩
  obtain ⟨v, hv⟩ := hsome
  refine ⟨v, gigrnd_some_pos _ 1 1 2 3 v (by norm_num) (by norm_num) hv, hv, ?_⟩
  rw [h, hv]
  rfl

end SamplerEvaluation

section ResidualVariance

variable {ρ σ α : Type} [LinearOrderedField α]

theorem dot_eq_zero_of_left_zero (x y : List α) (hx : ∀ u ∈ x, u = 0) : dot x y = 0 := by
  unfold dot
  induction x generalizing y with
  | nil => simp
  | cons a x ih =>
    cases y with
    | nil => simp
    | cons b y =>
      have ha : a = 0 := hx a (List.mem_cons_self _ _)
      simp [ha, ih y (fun u hu => hx u (List.mem_cons_of_mem _ hu))]

/-- `sum(beta^2 / psi)` is non-negative when `psi > 0`, and positive as soon as
one `beta_j` with a partner in `psi` is non-zero. -/
theorem sum_sq_div_nonneg (beta psi : List α) (hpsi : ∀ x ∈ psi, 0 < x) :
    0 ≤ (List.zipWith (fun bj pj => bj ^ 2 / pj) beta psi).sum := by
  induction beta generalizing psi with
  | nil => simp
  | cons b beta ih =>
    cases psi with
    | nil => simp
    | cons q psi =>
      have hq : 0 < q := hpsi q (List.mem_cons_self _ _)
      have := ih psi (fun x hx => hpsi x (List.mem_cons_of_mem _ hx))
      simp only [List.zipWith_cons_cons, List.sum_cons]
      have : 0 ≤ b ^ 2 / q := div_nonneg (sq_nonneg b) hq.le
      linarith

theorem sum_sq_div_pos (beta psi : List α) (hpsi : ∀ x ∈ psi, 0 < x)
    (hlen : beta.length ≤ psi.length) (hb : ∃ u ∈ beta, u ≠ 0) :
    0 < (List.zipWith (fun bj pj => bj ^ 2 / pj) beta psi).sum := by
  induction beta generalizing psi with
  | nil => obtain ⟨u, hu, -⟩ := hb; simp at hu
  | cons b beta ih =>
    cases psi with
    | nil => simp at hlen
    | cons q psi =>
      have hq : 0 < q := hpsi q (List.mem_cons_self _ _)
      have hpsi1 : ∀ x ∈ psi, 0 < x := fun x hx => hpsi x (List.mem_cons_of_mem _ hx)
      simp only [List.zipWith_cons_cons, List.sum_cons]
      have h0 : 0 ≤ b ^ 2 / q := div_nonneg (sq_nonneg b) hq.le
      have hrest := sum_sq_div_nonneg beta psi hpsi1
      by_cases hbz : b = 0
      · obtain ⟨u, hu, hne⟩ := hb
        rcases List.mem_cons.mp hu with rfl | hu
        · exact absurd hbz hne
        · have := ih psi hpsi1 (by simpa using hlen) ⟨u, hu, hne⟩
          linarith
      · have : 0 < b ^ 2 / q := div_pos (by positivity) hq
        linarith

/-- The block loop never touches the entries of `beta` below its offset `mm`. -/
theorem block_update_prefix (L : Libs ρ σ α) (n : Int) (beta_mrg psi : List α) (sigma : α)
    (blks : List (List (List α))) :
    ∀ (beta : List α) (quad : α) (mm : Nat) (ar : σ) (st1 : List α × α × Nat × σ),
      block_update L n beta_mrg psi sigma blks (beta, quad, mm, ar) = .ok st1 →
      st1.1.take mm = beta.take mm := by
  induction blks with
  | nil =>
    intro beta quad mm ar st1 h
    simp only [block_update] at h
    injection h with h
    subst h
    rfl
  | cons blk rest ih =>
    intro beta quad mm ar st1 h
    by_cases hne : blk.length = 0
    · rw [block_update, if_pos hne] at h
      exact ih _ _ _ _ _ h
    · obtain ⟨x, dinvt, beta1, ar1, hset, h1⟩ :=
        block_update_cons_ok L n beta_mrg psi sigma blk rest beta quad mm ar st1 hne h
      obtain ⟨hle, hx, rfl⟩ := setSubvec_ok _ _ _ _ _ hset
      have h2 := ih _ _ _ _ _ h1
      have h3 := congrArg (List.take mm) h2
      rw [List.take_take, min_eq_left (Nat.le_add_right _ _)] at h3
      rw [h3, List.take_take, min_eq_left (Nat.le_add_right _ _), List.append_assoc]
      rw [List.take_append_of_le_length (by rw [List.length_take]; omega), List.take_take,
        min_self]

/-- If `beta` is entirely zero after the block loop, the loop has added nothing to
`quad`. -/
theorem block_update_quad_of_zero (L : Libs ρ σ α) (n : Int) (beta_mrg psi : List α)
    (sigma : α) (blks : List (List (List α))) :
    ∀ (beta : List α) (quad : α) (mm : Nat) (ar : σ) (st1 : List α × α × Nat × σ),
      block_update L n beta_mrg psi sigma blks (beta, quad, mm, ar) = .ok st1 →
      (∀ u ∈ st1.1, u = 0) → st1.2.1 = quad := by
  induction blks with
  | nil =>
    intro beta quad mm ar st1 h _
    simp only [block_update] at h
    injection h with h
    subst h
    rfl
  | cons blk rest ih =>
    intro beta quad mm ar st1 h hz
    by_cases hne : blk.length = 0
    · rw [block_update, if_pos hne] at h
      exact ih _ _ _ _ _ h hz
    · obtain ⟨x, dinvt, beta1, ar1, hset, h1⟩ :=
        block_update_cons_ok L n beta_mrg psi sigma blk rest beta quad mm ar st1 hne h
      obtain ⟨hle, hx, rfl⟩ := setSubvec_ok _ _ _ _ _ hset
      have hpre := block_update_prefix L n beta_mrg psi sigma rest _ _ _ _ _ h1
      have hxz : ∀ u ∈ x, u = 0 := by
        intro u hu
        apply hz u
        have hmem : u ∈ st1.1.take (mm + blk.length) := by
          rw [hpre, List.append_assoc,
            List.take_append_eq_append_take, List.take_append_eq_append_take]
          simp only [List.mem_append]
          right; left
          rw [List.take_of_length_le (by rw [List.length_take]; omega)]
          exact hu
        exact List.mem_of_mem_take hmem
      rw [ih _ _ _ _ _ h1 hz]
      unfold quadForm
      rw [dot_eq_zero_of_left_zero x _ hxz, add_zero]

/-- The rate of line 215 is positive after the block loop, whatever `beta` is. -/
theorem errRate_pos (L : Libs ρ σ α) (n : Int) (beta_mrg psi : List α) (sigma : α)
    (blks : List (List (List α))) (beta0 : List α) (ar : σ) (st1 : List α × α × Nat × σ)
    (hn : 0 < n) (hpsi : ∀ x ∈ psi, 0 < x) (hlen : psi.length = beta0.length)
    (h : block_update L n beta_mrg psi sigma blks (beta0, 0, 0, ar) = .ok st1) :
    0 < errRate n st1.1 beta_mrg psi st1.2.1 := by
  have hn2 : (0 : α) < (n : α) / 2 := by
    have : (0 : α) < (n : α) := by exact_mod_cast hn
    positivity
  have hblen := block_update_length L n beta_mrg psi sigma blks _ _ h
  simp only at hblen
  unfold errRate
  rw [lt_max_iff]
  by_cases hz : ∀ u ∈ st1.1, u = 0
  · left
    have hq := block_update_quad_of_zero L n beta_mrg psi sigma blks _ _ _ _ _ h hz
    rw [hq, dot_eq_zero_of_left_zero _ _ hz]
    simpa using hn2
  · right
    push_neg at hz
    exact mul_pos hn2 (sum_sq_div_pos _ _ hpsi (by omega) hz)

/-- C7: for `n > 0` and all `psi_j > 0`, the rate
`err = max(n/2*(1 - 2*dot(beta, beta_mrg) + quad), n/2*sum(beta^2/psi))` handed to
the gamma draw of the residual variance is strictly positive whatever `beta` the
block loop produced, and with a gamma source returning positive values `sigma` is
strictly positive after the iteration. -/
theorem residual_rate_and_sigma_pos (L : Libs ρ σ α) (gig : α → α → α → Option α)
    (A : Args α) (beta_mrg : List α) (p : Nat) (phi_updt : Bool)
    (s s1 : SamplerState ρ σ α) (hn : 0 < A.n) (hpsi : ∀ x ∈ s.psi, 0 < x)
    (hlen : s.psi.length = s.beta.length)
    (hstep : gibbs_step L gig A beta_mrg p phi_updt s = .ok s1) :
    ∃ (quad : α) (mm : Nat),
      block_update L A.n beta_mrg s.psi s.sigma A.ld_blk (s.beta, 0, 0, s.arma)
        = .ok (s1.beta, quad, mm, s1.arma) ∧
      0 < errRate A.n s1.beta beta_mrg s.psi quad ∧
      s1.sigma = 1 / (L.gsl_ran_gamma s.rng (((A.n + (p : Int) : Int) : α) / 2)
        (1 / errRate A.n s1.beta beta_mrg s.psi quad)).1 ∧
      ((∀ r shape scale, 0 < (L.gsl_ran_gamma r shape scale).1) → 0 < s1.sigma) := by
  obtain ⟨quad, mm, delta, psi0, rng1, rng2, hb, hsig, -, -, -, -⟩ :=
    gibbs_step_ok L gig A beta_mrg p phi_updt s s1 hstep
  refine ⟨quad, mm, hb, ?_, hsig, ?_⟩
  · exact errRate_pos L A.n beta_mrg s.psi s.sigma A.ld_blk s.beta s.arma _ hn hpsi hlen hb
  · intro hg
    rw [hsig]
    exact one_div_pos.mpr (hg _ _ _)

end ResidualVariance

section LocalShrinkage

variable {ρ σ α : Type} [LinearOrderedField α]

theorem draw_delta_pos (L : Libs ρ σ α) (a b : α) (phi : Option α)
    (hg : ∀ r shape scale, 0 < (L.gsl_ran_gamma r shape scale).1) (psi : List α) :
    ∀ (rng : ρ) (ds : List α) (rng1 : ρ),
      draw_delta L a b phi psi rng = .ok (ds, rng1) → ∀ d ∈ ds, 0 < d := by
  induction psi with
  | nil =>
    intro rng ds rng1 h
    simp only [draw_delta] at h
    injection h with h
    injection h with h1 h2
    subst h1
    simp
  | cons pj rest ih =>
    intro rng ds rng1 h
    simp only [draw_delta, bind_ok_iff, pure, Except.pure] at h
    obtain ⟨ph, -, ⟨ds1, r2⟩, hrec, h⟩ := h
    injection h with h
    injection h with h1 h2
    subst h1
    intro d hd
    rcases List.mem_cons.mp hd with rfl | hd
    · exact hg _ _ _
    · exact ih _ _ _ hrec d hd

end LocalShrinkage

section LocalShrinkageReal

variable {ρ σ : Type}

end LocalShrinkageReal

section LocalShrinkageEvaluation

theorem zeroEffect_block_update :
    block_update (streamLibs drawsAcceptAtOnce 0 1) 1000 [0] [1] 1 [[[1]]] ([0], 0, 0, 0)
      = .ok ([0], 0, 1, 1) := by
  have ht : ∀ x : ℝ, [[x]].transpose = [[x]] := fun x => rfl
  simp [block_update, subvec, setSubvec, orThrow, streamLibs, matAdd, diagmat, vadd, quadForm,
    dot, matVec, bind, Except.bind, pure, Except.pure, List.range, List.range.loop, ht]

end LocalShrinkageEvaluation

section LocalShrinkageWitness

theorem gigrnd_accepts_at_once (z gm p a b : ℝ) :
    ∃ v, gigrnd (streamLibs drawsAcceptAtOnce z gm) 1 p a b = some v := by
  have hW : ((streamLibs drawsAcceptAtOnce z gm).gsl_rng_uniform
      ((streamLibs drawsAcceptAtOnce z gm).gsl_rng_uniform
        ((streamLibs drawsAcceptAtOnce z gm).gsl_rng_uniform
          (streamLibs drawsAcceptAtOnce z gm).gsl_rng_alloc).2).2).1 = 0 := by
    simp [streamLibs, drawsAcceptAtOnce]
  unfold gigrnd gig_accepted
  rw [rejection_loop_accepts_zero _ _ 0 _ hW]
  exact ⟨_, rfl⟩

theorem unitNoise_block_update : ∃ c q : ℝ, c ≠ 0 ∧
    block_update (streamLibs drawsAcceptAtOnce 1 1) 1000 [0] [1] 1 [[[1]]] ([0], 0, 0, 0)
      = .ok ([c], q, 1, 1) := by
  have ht : ∀ x : ℝ, [[x]].transpose = [[x]] := fun x => rfl
  simp [block_update, subvec, setSubvec, orThrow, streamLibs, matAdd, diagmat, vadd, quadForm,
    dot, matVec, bind, Except.bind, pure, Except.pure, List.range, List.range.loop, ht]

end LocalShrinkageWitness

/-- C7 on the first sweep of the scenario of the specification, run with the
stand-in libraries on `ℚ`: the rate is positive and so is the new `sigma`. -/
theorem residual_rate_and_sigma_pos_witness :
    ∃ (s1 : SamplerState Nat Nat ℚ) (quad : ℚ) (mm : Nat),
      gibbs_step demoLibs demoGig (scenario (some 1)) [1 / 10] 1 false scenarioState = .ok s1 ∧
      block_update demoLibs 1000 [1 / 10] [1] 1 [[[1]]] ([0], 0, 0, 0)
        = .ok (s1.beta, quad, mm, s1.arma) ∧
      0 < errRate 1000 s1.beta [1 / 10] [1] quad ∧ 0 < s1.sigma := by
  cases hstep : gibbs_step demoLibs demoGig (scenario (some 1)) [1 / 10] 1 false
      scenarioState with
  | error e =>
    have hsome : (resultOf (gibbs_step demoLibs demoGig (scenario (some 1)) [1 / 10] 1 false
        scenarioState)).isSome = true := by decide!
    rw [hstep] at hsome
    simp [resultOf] at hsome
  | ok s1 =>
    obtain ⟨quad, mm, hb, herr, -, hsig⟩ :=
      residual_rate_and_sigma_pos demoLibs demoGig (scenario (some 1)) [1 / 10] 1 false
        scenarioState s1 (by decide) (by simp [scenarioState]) rfl hstep
    refine ⟨s1, quad, mm, rfl, hb, herr, hsig ?_⟩
    intro r shape scale
    simp only [demoLibs]
    positivity

section PerAllele

variable {ρ σ α : Type} [LinearOrderedField α]

theorem mcmc_loop_beta_std (L : Libs ρ σ α) (gig : α → α → α → Option α) (A : Args α)
    (flag : Bool) (beta_mrg : List α) (p : Nat) (npst : Int) (phi_updt : Bool) :
    ∀ (its : List Int) (st : SamplerState ρ σ α × Posterior α),
      mcmc_loop L gig { A with beta_std := flag } beta_mrg p npst phi_updt its st
        = mcmc_loop L gig A beta_mrg p npst phi_updt its st := by
  intro its
  induction its with
  | nil => intro st; rfl
  | cons itr rest ih =>
    rintro ⟨s, acc⟩
    rw [mcmc_loop, mcmc_loop]
    have hstep : gibbs_step L gig { A with beta_std := flag } beta_mrg p phi_updt s
        = gibbs_step L gig A beta_mrg p phi_updt s := rfl
    rw [hstep]
    congr 1
    funext s1
    simp only [ih]

/-- The flag `beta_std` is not read before the end of the loop. -/
theorem run_loop_beta_std (L : Libs ρ σ α) (gig : α → α → α → Option α) (ar : σ) (A : Args α)
    (flag : Bool) : run_loop L gig ar { A with beta_std := flag } = run_loop L gig ar A := by
  unfold run_loop
  have hsetup : setup L ar { A with beta_std := flag } = setup L ar A := rfl
  rw [hsetup]
  congr 1
  funext st
  obtain ⟨beta_mrg, maf, npst, p, phi_updt, s0, acc0⟩ := st
  simp only
  rw [mcmc_loop_beta_std]

theorem rescale_true (L : Libs ρ σ α) (maf be out : List α)
    (h : rescale L true maf be = .ok out) : out = be := by
  simp only [rescale, Bool.not_true, Bool.false_eq_true, if_false] at h
  injection h with h
  exact h.symm

theorem rescale_false (L : Libs ρ σ α) (maf be out : List α)
    (h : rescale L false maf be = .ok out) :
    maf.length = be.length ∧
    out = List.zipWith (fun e m => e / L.sqrt (2 * m * (1 - m))) be maf := by
  simp only [rescale, Bool.not_false, if_true] at h
  split at h
  · rename_i hlen
    injection h with h
    exact ⟨hlen, h.symm⟩
  · cases h

/-- C11: two runs on the same inputs and the same draws that differ only in the
flag `beta_std`: the `beta_est` returned with `beta_std = false` is, element by
element, the `beta_est` returned with `beta_std = true` divided by
`sqrt(2 * maf_j * (1 - maf_j))`; `psi_est`, `sigma_est`, `phi_est` are the same. -/
theorem per_allele_is_standardized_over_sqrt (L : Libs ρ σ α) (gig : α → α → α → Option α)
    (ar : σ) (A : Args α) (outT outF : Posterior α) (cellT cellF : Option α) (arT arF : σ)
    (hT : prs_cs_mcmc L gig ar { A with beta_std := true } = .ok (outT, cellT, arT))
    (hF : prs_cs_mcmc L gig ar { A with beta_std := false } = .ok (outF, cellF, arF)) :
    ∃ maf, A.sumstats.get? 2 = some maf ∧ maf.length = outT.beta_est.length ∧
      outF.beta_est
        = List.zipWith (fun e m => e / L.sqrt (2 * m * (1 - m))) outT.beta_est maf ∧
      outF.psi_est = outT.psi_est ∧ outF.sigma_est = outT.sigma_est ∧
      outF.phi_est = outT.phi_est := by
  obtain ⟨mafT, sT, accT, hloopT, hresT, hpT, hsT, hfT, -, -⟩ :=
    prs_cs_mcmc_ok L gig ar _ outT cellT arT hT
  obtain ⟨mafF, sF, accF, hloopF, hresF, hpF, hsF, hfF, -, -⟩ :=
    prs_cs_mcmc_ok L gig ar _ outF cellF arF hF
  rw [run_loop_beta_std] at hloopT hloopF
  rw [hloopT] at hloopF
  injection hloopF with hEq
  simp only [Prod.mk.injEq] at hEq
  obtain ⟨rfl, rfl, rfl⟩ := hEq
  have hb1 := rescale_true L _ _ _ hresT
  obtain ⟨hlen, hb2⟩ := rescale_false L _ _ _ hresF
  simp only [run_loop, bind_ok_iff, pure, Except.pure] at hloopT
  obtain ⟨⟨beta_mrg, maf1, npst, p, phi_updt, s0, acc0⟩, hsetup, ⟨s1, acc1⟩, -, hh⟩ := hloopT
  injection hh with hh
  simp only [Prod.mk.injEq] at hh
  obtain ⟨rfl, -, -⟩ := hh
  obtain ⟨-, hmaf, -⟩ := setup_ok L ar A _ _ _ _ _ _ _ hsetup
  refine ⟨_, hmaf, ?_, ?_, ?_, ?_, ?_⟩
  · rw [hb1]; exact hlen
  · rw [hb2, hb1]
  · rw [hpF, hpT]
  · rw [hsF, hsT]
  · rw [hfF, hfT]

end PerAllele

/-- C11 on the scenario of the specification, run with the stand-in libraries on
`ℚ` (whose `sqrt` is the identity): both runs return, and the per-allele estimate
is the standardized one divided by `2 * 0.3 * 0.7`. -/
theorem per_allele_is_standardized_over_sqrt_witness :
    ∃ (outT outF : Posterior ℚ),
      (resultOf (prs_cs_mcmc demoLibs demoGig 0 { scenario (some 1) with beta_std := true })).map
        (fun r => r.1) = some outT ∧
      (resultOf (prs_cs_mcmc demoLibs demoGig 0 { scenario (some 1) with beta_std := false })).map
        (fun r => r.1) = some outF ∧
      outF.beta_est = List.zipWith (fun e m => e / (2 * m * (1 - m))) outT.beta_est [3 / 10] ∧
      outF.psi_est = outT.psi_est ∧ outF.sigma_est = outT.sigma_est ∧
      outF.phi_est = outT.phi_est := by
  have hsT : (resultOf (prs_cs_mcmc demoLibs demoGig 0
      { scenario (some 1) with beta_std := true })).isSome = true := by decide!
  have hsF : (resultOf (prs_cs_mcmc demoLibs demoGig 0
      { scenario (some 1) with beta_std := false })).isSome = true := by decide!
  cases hT : prs_cs_mcmc demoLibs demoGig 0 { scenario (some 1) with beta_std := true } with
  | error e => rw [hT] at hsT; simp [resultOf] at hsT
  | ok rT =>
    cases hF : prs_cs_mcmc demoLibs demoGig 0 { scenario (some 1) with beta_std := false } with
    | error e => rw [hF] at hsF; simp [resultOf] at hsF
    | ok rF =>
      obtain ⟨outT, cellT, arT⟩ := rT
      obtain ⟨outF, cellF, arF⟩ := rF
      obtain ⟨maf, hmaf, -, h1, h2, h3, h4⟩ :=
        per_allele_is_standardized_over_sqrt demoLibs demoGig 0 (scenario (some 1))
          outT outF cellT cellF arT arF hT hF
      have hm : maf = [3 / 10] := by
        have : (scenario (some 1)).sumstats.get? 2 = some [3 / 10] := rfl
        rw [this] at hmaf
        exact (Option.some.inj hmaf).symm
      subst hm
      exact ⟨outT, outF, rfl, rfl, h1, h2, h3, h4⟩

section BlockIndex

variable {ρ σ α : Type} [LinearOrderedField α]

end BlockIndex
section BlockIndexRanges

variable {ρ σ α : Type} [LinearOrderedField α]

end BlockIndexRanges

section RangeLemmas

variable {α : Type}

end RangeLemmas
section BlockIndexClaim

variable {ρ σ α : Type} [LinearOrderedField α]

end BlockIndexClaim

/-- C13 fails on the code: the seed reaches the GSL generator only (line 168).
The scenario of the specification is run twice with the same arguments and the
same seed `1`; the second call finds Armadillo's generator where the first left
it (20 normal draws on), draws other normal noise and returns another
`beta_est`. -/
theorem same_seed_different_output :
    (resultOf (prs_cs_mcmc demoLibs demoGig 0 (scenario (some 1)))).map
      (fun r => (r.1.beta_est, r.2.2)) = some ([1 / 90], 20) ∧
    (resultOf (prs_cs_mcmc demoLibs demoGig 20 (scenario (some 1)))).map
      (fun r => r.1.beta_est) = some [1997 / 180000] := by
  constructor <;> decide!

section Majorization

/-- The tangent of `psi` at any point `t` lies above `psi` (concavity). -/
theorem psi_le_tangent (alpha lambda : ℝ) (ha : 0 ≤ alpha) (hl : 0 ≤ lambda) (t x : ℝ) :
    psi x alpha lambda ≤ psi t alpha lambda + dpsi t alpha lambda * (x - t) := by
  have hA : 0 ≤ Real.exp x - Real.exp t * (1 + (x - t)) := by
    have h1 : x - t + 1 ≤ Real.exp (x - t) := Real.add_one_le_exp (x - t)
    have h2 : Real.exp x = Real.exp t * Real.exp (x - t) := by
      rw [← Real.exp_add]; congr 1; ring
    have h3 : 0 < Real.exp t := Real.exp_pos t
    rw [h2]
    nlinarith
  have hB : 0 ≤ Real.exp (-x) - Real.exp (-t) * (1 - (x - t)) := by
    have h1 : -x - -t + 1 ≤ Real.exp (-x - -t) := Real.add_one_le_exp (-x - -t)
    have h2 : Real.exp (-x) = Real.exp (-t) * Real.exp (-x - -t) := by
      rw [← Real.exp_add]; congr 1; ring
    have h3 : 0 < Real.exp (-t) := Real.exp_pos (-t)
    rw [h2]
    nlinarith
  have hid : psi t alpha lambda + dpsi t alpha lambda * (x - t) - psi x alpha lambda
      = alpha * ((Real.exp x - Real.exp t * (1 + (x - t)))
          + (Real.exp (-x) - Real.exp (-t) * (1 - (x - t)))) / 2
        + lambda * (Real.exp x - Real.exp t * (1 + (x - t))) := by
    unfold psi dpsi
    rw [Real.cosh_eq, Real.cosh_eq, Real.sinh_eq]
    ring
  have hnn : 0 ≤ alpha * ((Real.exp x - Real.exp t * (1 + (x - t)))
      + (Real.exp (-x) - Real.exp (-t) * (1 - (x - t)))) / 2
      + lambda * (Real.exp x - Real.exp t * (1 + (x - t))) := by
    have h1 := mul_nonneg ha (add_nonneg hA hB)
    have h2 := mul_nonneg hl hA
    linarith
  linarith

theorem psi_zero (alpha lambda : ℝ) : psi 0 alpha lambda = 0 := by
  simp [psi]

theorem dpsi_zero (alpha lambda : ℝ) : dpsi 0 alpha lambda = 0 := by
  simp [dpsi]

theorem psi_nonpos (alpha lambda : ℝ) (ha : 0 ≤ alpha) (hl : 0 ≤ lambda) (x : ℝ) :
    psi x alpha lambda ≤ 0 := by
  have h := psi_le_tangent alpha lambda ha hl 0 x
  rw [psi_zero, dpsi_zero] at h
  linarith

/-- The function `g` with the two tangent factors is at least `exp(psi)`,
wherever the region boundaries `sd`, `td` lie. -/
theorem g_ge_exp_psi (alpha lambda : ℝ) (ha : 0 ≤ alpha) (hl : 0 ≤ lambda)
    (t s sd td x : ℝ) :
    Real.exp (psi x alpha lambda)
      ≤ g x sd td (Real.exp (-(-psi t alpha lambda) - -dpsi t alpha lambda * (x - t)))
          (Real.exp (-(-psi (-s) alpha lambda) + dpsi (-s) alpha lambda * (x + s))) := by
  unfold g
  split
  · rw [← Real.exp_zero]
    exact Real.exp_le_exp.mpr (psi_nonpos alpha lambda ha hl x)
  · split
    · apply Real.exp_le_exp.mpr
      have := psi_le_tangent alpha lambda ha hl t x
      linarith
    · apply Real.exp_le_exp.mpr
      have := psi_le_tangent alpha lambda ha hl (-s) x
      have hx : x - -s = x + s := by ring
      rw [hx] at this
      linarith

/-- C14: for `alpha ≥ 0`, `lambda ≥ 0`, all breakpoints `t`, `s` and every real
`x`, with `eta`, `zeta`, `theta`, `xi`, `td`, `sd`, `f1`, `f2` as in `gigrnd`, the
envelope `g(x, sd, td, f1, f2)` is at least `exp(psi(x, alpha, lambda))`, so the
acceptance ratio `exp(psi) / g` never exceeds 1. -/
theorem envelope_majorizes_target (alpha lambda t s x : ℝ) (ha : 0 ≤ alpha)
    (hl : 0 ≤ lambda) :
    Real.exp (psi x alpha lambda)
      ≤ g x (s - (-psi (-s) alpha lambda) / dpsi (-s) alpha lambda)
          (t - (-psi t alpha lambda) / (-dpsi t alpha lambda))
          (Real.exp (-(-psi t alpha lambda) - -dpsi t alpha lambda * (x - t)))
          (Real.exp (-(-psi (-s) alpha lambda) + dpsi (-s) alpha lambda * (x + s))) ∧
    Real.exp (psi x alpha lambda)
      / g x (s - (-psi (-s) alpha lambda) / dpsi (-s) alpha lambda)
          (t - (-psi t alpha lambda) / (-dpsi t alpha lambda))
          (Real.exp (-(-psi t alpha lambda) - -dpsi t alpha lambda * (x - t)))
          (Real.exp (-(-psi (-s) alpha lambda) + dpsi (-s) alpha lambda * (x + s))) ≤ 1 := by
  have h := g_ge_exp_psi alpha lambda ha hl t s
    (s - (-psi (-s) alpha lambda) / dpsi (-s) alpha lambda)
    (t - (-psi t alpha lambda) / (-dpsi t alpha lambda)) x
  refine ⟨h, ?_⟩
  have hpos : 0 < Real.exp (psi x alpha lambda) := Real.exp_pos _
  exact (div_le_one (lt_of_lt_of_le hpos h)).mpr h

/-- C14 at `alpha = 1`, `lambda = 0`, `t = s = 1`, `x = 2` (right tail). -/
theorem envelope_majorizes_target_witness :
    Real.exp (psi 2 1 0)
      ≤ g 2 (1 - (-psi (-1) 1 0) / dpsi (-1) 1 0) (1 - (-psi 1 1 0) / (-dpsi 1 1 0))
          (Real.exp (-(-psi 1 1 0) - -dpsi 1 1 0 * (2 - 1)))
          (Real.exp (-(-psi (-1) 1 0) + dpsi (-1) 1 0 * (2 + 1))) :=
  (envelope_majorizes_target 1 0 1 1 2 zero_le_one (le_refl 0)).1

end Majorization

section GigCallArguments

variable {ρ σ α : Type} [LinearOrderedField α]

theorem draw_psi_eq_call_gig (gig : α → α → α → Option α) (a : α) (n : Int) (sigma : α)
    (delta : List α) :
    ∀ (beta : List α), draw_psi gig a n sigma delta beta
      = call_gig gig (a - 1 / 2) (gig_call_args n sigma delta beta) := by
  induction delta with
  | nil => intro beta; simp [draw_psi, gig_call_args, call_gig]
  | cons d ds ih =>
    intro beta
    cases beta with
    | nil => simp [draw_psi, gig_call_args, call_gig]
    | cons bj bs =>
      have hrec := ih bs
      simp only [gig_call_args] at hrec
      simp only [draw_psi, gig_call_args, List.zipWith_cons_cons, call_gig, hrec]

theorem gig_call_args_sign (n : Int) (sigma : α) (hn : 0 < n) (hsigma : 0 < sigma)
    (delta : List α) :
    ∀ (beta : List α), delta.length = beta.length → (∀ d ∈ delta, 0 < d) →
      List.Forall₂ (fun c bj => 0 < c.1 ∧ 0 ≤ c.2 ∧ (0 < c.2 ↔ bj ≠ 0))
        (gig_call_args n sigma delta beta) beta := by
  have hnα : (0 : α) < (n : α) := by exact_mod_cast hn
  induction delta with
  | nil =>
    intro beta hlen _
    cases beta with
    | nil => simp [gig_call_args]
    | cons bj bs => simp at hlen
  | cons d ds ih =>
    intro beta hlen hd
    cases beta with
    | nil => simp at hlen
    | cons bj bs =>
      have hd0 : 0 < d := hd d (List.mem_cons_self _ _)
      have hrec := ih bs (by simpa using hlen) (fun x hx => hd x (List.mem_cons_of_mem _ hx))
      simp only [gig_call_args] at hrec
      simp only [gig_call_args, List.zipWith_cons_cons]
      refine List.Forall₂.cons ⟨by positivity, by positivity, ?_⟩ hrec
      constructor
      · intro h hz
        rw [hz] at h
        simp at h
      · intro hne
        exact div_pos (mul_pos hnα (by positivity)) hsigma

/-- C15, amended: at every call of `gigrnd` made in a sweep (`n > 0`, positive
gamma draws) the first scale argument `2 * delta_j` is strictly positive and the
second, `n * beta_j^2 / sigma`, is non-negative; the second is strictly positive
exactly for the variants `j` with `beta_j ≠ 0`. -/
theorem gig_scale_arguments_sign (L : Libs ρ σ α) (gig : α → α → α → Option α) (A : Args α)
    (beta_mrg : List α) (p : Nat) (phi_updt : Bool) (s s1 : SamplerState ρ σ α)
    (hn : 0 < A.n) (hg : ∀ r shape scale, 0 < (L.gsl_ran_gamma r shape scale).1)
    (hlen : s.psi.length = s.beta.length)
    (hstep : gibbs_step L gig A beta_mrg p phi_updt s = .ok s1) :
    ∃ (args : List (α × α)) (psi0 : List α),
      sweep_gig_args L A beta_mrg p s = .ok args ∧
      call_gig gig (A.a - 1 / 2) args = .ok psi0 ∧ s1.psi = clamp psi0 ∧
      List.Forall₂ (fun c bj => 0 < c.1 ∧ 0 ≤ c.2 ∧ (0 < c.2 ↔ bj ≠ 0)) args s1.beta := by
  have hblen : s1.beta.length = s.beta.length :=
    (gibbs_step_lengths L gig A beta_mrg p phi_updt s s1 hstep).1
  simp only [gibbs_step, bind_ok_iff, pure, Except.pure] at hstep
  obtain ⟨⟨beta, quad, mm, ar⟩, hb, ⟨delta, rng2⟩, hd, psi0, hp, ⟨phi, rng3⟩, hu, h⟩ := hstep
  injection h with h
  subst h
  simp only at hd hp hblen ⊢
  have hdpos := draw_delta_pos L A.a A.b s.phi hg s.psi _ _ _ hd
  have hdlen := draw_delta_length L A.a A.b s.phi s.psi _ _ _ hd
  refine ⟨gig_call_args A.n (1 / (L.gsl_ran_gamma s.rng (((A.n + (p : Int) : Int) : α) / 2)
    (1 / errRate A.n beta beta_mrg s.psi quad)).1) delta beta, psi0, ?_, ?_, rfl, ?_⟩
  · simp only [sweep_gig_args, hb, hd, bind, Except.bind, pure, Except.pure]
  · rw [← draw_psi_eq_call_gig]; exact hp
  · exact gig_call_args_sign A.n _ hn (one_div_pos.mpr (hg _ _ _)) delta beta (by omega) hdpos

end GigCallArguments

section GigCallEvaluation

/-- C15 fails on the code: in the first sweep on `zeroEffectArgs` (marginal effect
`0`, normal draw `0`, hence `beta = [0]`) `gigrnd` is called with the scale
arguments `(2, 0)`: the second one is not strictly positive. -/
theorem gig_scale_argument_can_be_zero :
    sweep_gig_args (streamLibs drawsAcceptAtOnce 0 1) zeroEffectArgs [0] 1 zeroEffectState
      = .ok [(2, 0)] := by
  have hb := zeroEffect_block_update
  simp only [sweep_gig_args, zeroEffectArgs, zeroEffectState, hb, bind, Except.bind, pure,
    Except.pure]
  simp [streamLibs, draw_delta, deref, orThrow, gig_call_args, bind, Except.bind, pure,
    Except.pure]

/-- The first sweep on `zeroEffectArgs` with the normal draw `1`. -/
theorem unitNoise_gibbs_step : ∃ c v : ℝ, c ≠ 0 ∧
    gibbs_step (streamLibs drawsAcceptAtOnce 1 1) (gigrnd (streamLibs drawsAcceptAtOnce 1 1) 1)
        zeroEffectArgs [0] 1 false zeroEffectState
      = .ok { beta := [c], psi := clamp [v], sigma := 1, phi := some 1, rng := 2, arma := 1 } := by
  obtain ⟨c, q, hc, hb⟩ := unitNoise_block_update
  obtain ⟨v, hv⟩ := gigrnd_accepts_at_once 1 1 (4⁻¹ - 2⁻¹) 2 (1000 * c ^ 2)
  simp only [streamLibs] at hv
  refine ⟨c, v, hc, ?_⟩
  simp only [gibbs_step, zeroEffectArgs, zeroEffectState, hb, bind, Except.bind, pure,
    Except.pure]
  simp [streamLibs, draw_delta, draw_psi, deref, orThrow, update_phi, clamp, bind,
    Except.bind, pure, Except.pure, hv]

/-- C15 amended, on a concrete sweep: with the normal draw `1` the new `beta` is
non-zero and both scale arguments of the call are strictly positive. -/
theorem gig_scale_arguments_sign_witness :
    ∃ args : List (ℝ × ℝ),
      sweep_gig_args (streamLibs drawsAcceptAtOnce 1 1) zeroEffectArgs [0] 1 zeroEffectState
        = .ok args ∧ ∀ c ∈ args, 0 < c.1 ∧ 0 < c.2 := by
  obtain ⟨c, v, hc, hstep⟩ := unitNoise_gibbs_step
  obtain ⟨args, psi0, hargs, -, -, hall⟩ :=
    gig_scale_arguments_sign (streamLibs drawsAcceptAtOnce 1 1)
      (gigrnd (streamLibs drawsAcceptAtOnce 1 1) 1) zeroEffectArgs [0] 1 false zeroEffectState _
      (by simp [zeroEffectArgs]) (by intro r shape scale; simp [streamLibs]) rfl hstep
  refine ⟨args, hargs, ?_⟩
  simp only at hall
  cases hall with
  | cons h hrest =>
    cases hrest
    intro x hx
    rw [List.mem_singleton.mp hx]
    exact ⟨h.1, h.2.2.mpr hc⟩

end GigCallEvaluation

section EnvelopeWellFormed

/-- Strict form of `psi_le_tangent` for `alpha > 0`: away from the point of
tangency the tangent lies strictly above `psi`. -/
theorem psi_lt_tangent (alpha lambda : ℝ) (ha : 0 < alpha) (hl : 0 ≤ lambda) (t x : ℝ)
    (hx : x ≠ t) : psi x alpha lambda < psi t alpha lambda + dpsi t alpha lambda * (x - t) := by
  have hxt : x - t ≠ 0 := sub_ne_zero.mpr hx
  have hA : 0 < Real.exp x - Real.exp t * (1 + (x - t)) := by
    have h1 : x - t + 1 < Real.exp (x - t) := Real.add_one_lt_exp hxt
    have h2 : Real.exp x = Real.exp t * Real.exp (x - t) := by
      rw [← Real.exp_add]; congr 1; ring
    have h3 : 0 < Real.exp t := Real.exp_pos t
    rw [h2]
    nlinarith
  have hB : 0 ≤ Real.exp (-x) - Real.exp (-t) * (1 - (x - t)) := by
    have h1 : -x - -t + 1 ≤ Real.exp (-x - -t) := Real.add_one_le_exp (-x - -t)
    have h2 : Real.exp (-x) = Real.exp (-t) * Real.exp (-x - -t) := by
      rw [← Real.exp_add]; congr 1; ring
    have h3 : 0 < Real.exp (-t) := Real.exp_pos (-t)
    rw [h2]
    nlinarith
  have hid : psi t alpha lambda + dpsi t alpha lambda * (x - t) - psi x alpha lambda
      = alpha * ((Real.exp x - Real.exp t * (1 + (x - t)))
          + (Real.exp (-x) - Real.exp (-t) * (1 - (x - t)))) / 2
        + lambda * (Real.exp x - Real.exp t * (1 + (x - t))) := by
    unfold psi dpsi
    rw [Real.cosh_eq, Real.cosh_eq, Real.sinh_eq]
    ring
  have h1 : 0 < alpha * ((Real.exp x - Real.exp t * (1 + (x - t)))
      + (Real.exp (-x) - Real.exp (-t) * (1 - (x - t)))) := mul_pos ha (by linarith)
  have h2 := mul_nonneg hl hA.le
  linarith

theorem gig_alpha_pos (lambda omega : ℝ) (hl : 0 ≤ lambda) (ho : 0 < omega) :
    0 < Real.sqrt (omega ^ 2 + lambda ^ 2) - lambda := by
  have h1 : Real.sqrt (lambda ^ 2) < Real.sqrt (omega ^ 2 + lambda ^ 2) :=
    Real.sqrt_lt_sqrt (sq_nonneg lambda) (by nlinarith)
  rw [Real.sqrt_sq hl] at h1
  linarith

theorem breakpoint_t_pos (alpha lambda : ℝ) (ha : 0 < alpha) (hl : 0 ≤ lambda) :
    0 < breakpoint_t alpha lambda := by
  obtain ⟨-, -, -, hc1, -, -⟩ := hyperbolic_one_bounds
  have he := Real.exp_one_gt_d9
  have hne : ¬ (alpha = 0 ∧ lambda = 0) := fun h => (ne_of_gt ha) h.1
  unfold breakpoint_t
  simp only
  rw [if_neg hne, if_neg hne]
  split
  · rename_i hx
    have hx1 : alpha * (Real.cosh 1 - 1) + lambda * (Real.exp 1 - 1 - 1) < 1 / 2 := by
      have : -psi 1 alpha lambda
          = alpha * (Real.cosh 1 - 1) + lambda * (Real.exp 1 - 1 - 1) := by
        unfold psi; ring
      rw [this] at hx
      exact hx
    have h1 : alpha * (1 / 2) ≤ alpha * (Real.cosh 1 - 1) :=
      mul_le_mul_of_nonneg_left (by linarith) ha.le
    have h2 : lambda * (7 / 10) ≤ lambda * (Real.exp 1 - 1 - 1) :=
      mul_le_mul_of_nonneg_left (by linarith) hl
    have hsum : alpha + 2 * lambda < 4 := by linarith
    have hpos : 0 < alpha + 2 * lambda := by linarith
    apply Real.log_pos
    rw [lt_div_iff₀ hpos]
    linarith
  · split
    · exact one_pos
    · exact Real.sqrt_pos.mpr (div_pos (by norm_num) (by linarith))

theorem breakpoint_s_pos (alpha lambda : ℝ) (ha : 0 < alpha) (hl : 0 ≤ lambda) :
    0 < breakpoint_s alpha lambda := by
  obtain ⟨-, -, -, hc1, -, -⟩ := hyperbolic_one_bounds
  have hne : ¬ (alpha = 0 ∧ lambda = 0) := fun h => (ne_of_gt ha) h.1
  have hna : ¬ (alpha = 0) := ne_of_gt ha
  have hlog : 0 < Real.log (1 + 1 / alpha + Real.sqrt (1 / alpha ^ 2 + 2 / alpha)) := by
    apply Real.log_pos
    have h1 : 0 < 1 / alpha := one_div_pos.mpr ha
    have h2 : 0 ≤ Real.sqrt (1 / alpha ^ 2 + 2 / alpha) := Real.sqrt_nonneg _
    linarith
  unfold breakpoint_s
  simp only
  split
  · split
    · exact hlog
    · rename_i hl0
      have hlpos : 0 < lambda := lt_of_le_of_ne hl (Ne.symm hl0)
      exact lt_min (one_div_pos.mpr hlpos) hlog
  · split
    · exact one_pos
    · exact Real.sqrt_pos.mpr (div_pos (by norm_num)
        (by have := mul_pos ha (show (0 : ℝ) < Real.cosh 1 by linarith); linarith))

theorem neg_dpsi_pos (alpha lambda t : ℝ) (ha : 0 < alpha) (hl : 0 ≤ lambda) (ht : 0 < t) :
    0 < -dpsi t alpha lambda := by
  have h1 : 0 < Real.sinh t := Real.sinh_pos_iff.mpr ht
  have h2 : 1 < Real.exp t := Real.one_lt_exp_iff.mpr ht
  have h3 := mul_pos ha h1
  have h4 := mul_nonneg hl (show (0 : ℝ) ≤ Real.exp t - 1 by linarith)
  unfold dpsi
  linarith

theorem dpsi_neg_pos (alpha lambda s : ℝ) (ha : 0 < alpha) (hl : 0 ≤ lambda) (hs : 0 < s) :
    0 < dpsi (-s) alpha lambda := by
  have h1 : 0 < Real.sinh s := Real.sinh_pos_iff.mpr hs
  have h2 : Real.exp (-s) < 1 := Real.exp_lt_one_iff.mpr (by linarith)
  have h3 := mul_pos ha h1
  have h4 := mul_nonneg hl (show (0 : ℝ) ≤ 1 - Real.exp (-s) by linarith)
  unfold dpsi
  rw [Real.sinh_neg]
  linarith

/-- The envelope of lines 83-107 for `lambda ≥ 0` and `omega > 0`. -/
theorem envelope_pos (lambda omega : ℝ) (hl : 0 ≤ lambda) (ho : 0 < omega) :
    0 < (envelope lambda omega).alpha ∧ (envelope lambda omega).lambda = lambda ∧
    0 < (envelope lambda omega).t ∧ 0 < (envelope lambda omega).s ∧
    0 < (envelope lambda omega).zeta ∧ 0 < (envelope lambda omega).xi ∧
    0 < (envelope lambda omega).td ∧ 0 < (envelope lambda omega).sd ∧
    0 < (envelope lambda omega).p_r ∧ 0 < (envelope lambda omega).q ∧
    0 < (envelope lambda omega).r := by
  have ha := gig_alpha_pos lambda omega hl ho
  have ht := breakpoint_t_pos _ lambda ha hl
  have hs := breakpoint_s_pos _ lambda ha hl
  have hz := neg_dpsi_pos _ lambda _ ha hl ht
  have hx := dpsi_neg_pos _ lambda _ ha hl hs
  have htd : 0 < breakpoint_t (Real.sqrt (omega ^ 2 + lambda ^ 2) - lambda) lambda
      - 1 / (-dpsi (breakpoint_t (Real.sqrt (omega ^ 2 + lambda ^ 2) - lambda) lambda)
          (Real.sqrt (omega ^ 2 + lambda ^ 2) - lambda) lambda)
        * -psi (breakpoint_t (Real.sqrt (omega ^ 2 + lambda ^ 2) - lambda) lambda)
          (Real.sqrt (omega ^ 2 + lambda ^ 2) - lambda) lambda := by
    have h := psi_lt_tangent _ lambda ha hl
      (breakpoint_t (Real.sqrt (omega ^ 2 + lambda ^ 2) - lambda) lambda) 0 (ne_of_gt ht).symm
    rw [psi_zero] at h
    rw [sub_pos, one_div, inv_mul_lt_iff₀ hz]
    linarith
  have hsd : 0 < breakpoint_s (Real.sqrt (omega ^ 2 + lambda ^ 2) - lambda) lambda
      - 1 / dpsi (-breakpoint_s (Real.sqrt (omega ^ 2 + lambda ^ 2) - lambda) lambda)
          (Real.sqrt (omega ^ 2 + lambda ^ 2) - lambda) lambda
        * -psi (-breakpoint_s (Real.sqrt (omega ^ 2 + lambda ^ 2) - lambda) lambda)
          (Real.sqrt (omega ^ 2 + lambda ^ 2) - lambda) lambda := by
    have h := psi_lt_tangent _ lambda ha hl
      (-breakpoint_s (Real.sqrt (omega ^ 2 + lambda ^ 2) - lambda) lambda) 0
      (by have := hs; intro h0; linarith)
    rw [psi_zero] at h
    rw [sub_pos, one_div, inv_mul_lt_iff₀ hx]
    linarith
  refine ⟨ha, rfl, ht, hs, hz, hx, htd, hsd, one_div_pos.mpr hx, ?_, one_div_pos.mpr hz⟩
  exact add_pos htd hsd

end EnvelopeWellFormed

section EnvelopeClaims

/-- C18: for every real `p` and every `a > 0`, `b > 0` the envelope built by
`gigrnd` is well formed: `omega > 0` and `alpha > 0` (so the `alpha == 0`
branches are not taken), the breakpoints satisfy `t > 0`, `s > 0`, the slopes
`zeta` and `xi` are strictly positive, `td ≥ 0`, `sd ≥ 0`, and the three weights
`p_r`, `q`, `r` are strictly positive; no divisor of lines 83-137 is zero. -/
theorem gig_envelope_well_formed (p a b : ℝ) (ha : 0 < a) (hb : 0 < b) :
    0 < Real.sqrt (a * b) ∧ 0 < Real.sqrt (a / b) ∧
    0 < (envelope (gig_lambda p) (Real.sqrt (a * b))).alpha ∧
    0 ≤ (envelope (gig_lambda p) (Real.sqrt (a * b))).lambda ∧
    0 < (envelope (gig_lambda p) (Real.sqrt (a * b))).t ∧
    0 < (envelope (gig_lambda p) (Real.sqrt (a * b))).s ∧
    0 < (envelope (gig_lambda p) (Real.sqrt (a * b))).zeta ∧
    0 < (envelope (gig_lambda p) (Real.sqrt (a * b))).xi ∧
    0 ≤ (envelope (gig_lambda p) (Real.sqrt (a * b))).td ∧
    0 ≤ (envelope (gig_lambda p) (Real.sqrt (a * b))).sd ∧
    0 < (envelope (gig_lambda p) (Real.sqrt (a * b))).p_r ∧
    0 < (envelope (gig_lambda p) (Real.sqrt (a * b))).q ∧
    0 < (envelope (gig_lambda p) (Real.sqrt (a * b))).r ∧
    0 < (envelope (gig_lambda p) (Real.sqrt (a * b))).p_r
      + (envelope (gig_lambda p) (Real.sqrt (a * b))).q
      + (envelope (gig_lambda p) (Real.sqrt (a * b))).r := by
  have ho : 0 < Real.sqrt (a * b) := Real.sqrt_pos.mpr (mul_pos ha hb)
  have hl := gig_lambda_nonneg p
  obtain ⟨h1, h2, h3, h4, h5, h6, h7, h8, h9, h10, h11⟩ :=
    envelope_pos (gig_lambda p) (Real.sqrt (a * b)) hl ho
  refine ⟨ho, Real.sqrt_pos.mpr (div_pos ha hb), h1, ?_, h3, h4, h5, h6, h7.le, h8.le, h9, h10,
    h11, by linarith⟩
  rw [h2]
  exact hl

/-- C18 at `p = -1/4`, `a = 2`, `b = 3`. -/
theorem gig_envelope_well_formed_witness :
    0 < (envelope (gig_lambda (-(1 / 4))) (Real.sqrt (2 * 3))).alpha ∧
    0 < (envelope (gig_lambda (-(1 / 4))) (Real.sqrt (2 * 3))).q :=
  ⟨(gig_envelope_well_formed (-(1 / 4)) 2 3 (by norm_num) (by norm_num)).2.2.1,
    (gig_envelope_well_formed (-(1 / 4)) 2 3 (by norm_num) (by norm_num)).2.2.2.2.2.2.2.2.2.2.2.1⟩

/-- C16: in a round of the rejection loop with `p_r, q, r > 0` and `V` in `(0, 1)`
the three branches on `U` are the intervals `[0, q/S)`, `[q/S, (q+r)/S)` and
`[(q+r)/S, 1)` with `S = p_r + q + r`, of lengths `q/S`, `r/S` and `p_r/S`; the
candidate is `-sd + q*V` in `[-sd, td]` on the first, `td - r*log V ≥ td` on the
second and `-sd + p_r*log V ≤ -sd` on the third. -/
theorem rejection_round_segments (lambda omega U V : ℝ)
    (hp : 0 < (envelope lambda omega).p_r) (hq : 0 < (envelope lambda omega).q)
    (hr : 0 < (envelope lambda omega).r) (hV0 : 0 < V) (hV1 : V < 1) :
    (0 < (envelope lambda omega).q
        / ((envelope lambda omega).p_r + (envelope lambda omega).q + (envelope lambda omega).r) ∧
      ((envelope lambda omega).q + (envelope lambda omega).r)
        / ((envelope lambda omega).p_r + (envelope lambda omega).q + (envelope lambda omega).r)
        - (envelope lambda omega).q
          / ((envelope lambda omega).p_r + (envelope lambda omega).q + (envelope lambda omega).r)
        = (envelope lambda omega).r
          / ((envelope lambda omega).p_r + (envelope lambda omega).q + (envelope lambda omega).r) ∧
      1 - ((envelope lambda omega).q + (envelope lambda omega).r)
        / ((envelope lambda omega).p_r + (envelope lambda omega).q + (envelope lambda omega).r)
        = (envelope lambda omega).p_r
          / ((envelope lambda omega).p_r + (envelope lambda omega).q + (envelope lambda omega).r)) ∧
    (U < (envelope lambda omega).q
        / ((envelope lambda omega).p_r + (envelope lambda omega).q + (envelope lambda omega).r) →
      candidate (envelope lambda omega) U V
        = -(envelope lambda omega).sd + (envelope lambda omega).q * V ∧
      -(envelope lambda omega).sd ≤ candidate (envelope lambda omega) U V ∧
      candidate (envelope lambda omega) U V ≤ (envelope lambda omega).td) ∧
    ((envelope lambda omega).q
        / ((envelope lambda omega).p_r + (envelope lambda omega).q + (envelope lambda omega).r) ≤ U →
      U < ((envelope lambda omega).q + (envelope lambda omega).r)
        / ((envelope lambda omega).p_r + (envelope lambda omega).q + (envelope lambda omega).r) →
      candidate (envelope lambda omega) U V
        = (envelope lambda omega).td - (envelope lambda omega).r * Real.log V ∧
      (envelope lambda omega).td ≤ candidate (envelope lambda omega) U V) ∧
    (((envelope lambda omega).q + (envelope lambda omega).r)
        / ((envelope lambda omega).p_r + (envelope lambda omega).q + (envelope lambda omega).r) ≤ U →
      candidate (envelope lambda omega) U V
        = -(envelope lambda omega).sd + (envelope lambda omega).p_r * Real.log V ∧
      candidate (envelope lambda omega) U V ≤ -(envelope lambda omega).sd) := by
  have hqdef : (envelope lambda omega).q
      = (envelope lambda omega).td + (envelope lambda omega).sd := rfl
  have hS : 0 < (envelope lambda omega).p_r + (envelope lambda omega).q
      + (envelope lambda omega).r := by linarith
  have hlog : Real.log V < 0 := Real.log_neg hV0 hV1
  have hlt : (envelope lambda omega).q
      / ((envelope lambda omega).p_r + (envelope lambda omega).q + (envelope lambda omega).r)
      < ((envelope lambda omega).q + (envelope lambda omega).r)
        / ((envelope lambda omega).p_r + (envelope lambda omega).q + (envelope lambda omega).r) :=
    div_lt_div_of_pos_right (by linarith) hS
  refine ⟨⟨div_pos hq hS, ?_, ?_⟩, ?_, ?_, ?_⟩
  · field_simp
  · field_simp
  · intro hU
    have hc : candidate (envelope lambda omega) U V
        = -(envelope lambda omega).sd + (envelope lambda omega).q * V := by
      unfold candidate
      rw [if_pos hU]
    rw [hc]
    refine ⟨rfl, ?_, ?_⟩
    · have := mul_pos hq hV0
      linarith
    · have : (envelope lambda omega).q * V ≤ (envelope lambda omega).q :=
        mul_le_of_le_one_right hq.le hV1.le
      linarith
  · intro hU1 hU2
    have hc : candidate (envelope lambda omega) U V
        = (envelope lambda omega).td - (envelope lambda omega).r * Real.log V := by
      unfold candidate
      rw [if_neg (not_lt.mpr hU1), if_pos hU2]
    rw [hc]
    refine ⟨rfl, ?_⟩
    have := mul_neg_of_pos_of_neg hr hlog
    linarith
  · intro hU
    have hc : candidate (envelope lambda omega) U V
        = -(envelope lambda omega).sd + (envelope lambda omega).p_r * Real.log V := by
      unfold candidate
      rw [if_neg (not_lt.mpr (le_trans hlt.le hU)), if_neg (not_lt.mpr hU)]
    rw [hc]
    refine ⟨rfl, ?_⟩
    have := mul_neg_of_pos_of_neg hp hlog
    linarith

/-- C16 on the envelope of `gigrnd(0, 1, 1)` with `U = 0`, `V = 1/2`: the central
branch is taken and the candidate lies in `[-sd, td]`. -/
theorem rejection_round_segments_witness :
    candidate (envelope (gig_lambda 0) (Real.sqrt (1 * 1))) 0 (1 / 2)
      = -(envelope (gig_lambda 0) (Real.sqrt (1 * 1))).sd
        + (envelope (gig_lambda 0) (Real.sqrt (1 * 1))).q * (1 / 2) ∧
    -(envelope (gig_lambda 0) (Real.sqrt (1 * 1))).sd
      ≤ candidate (envelope (gig_lambda 0) (Real.sqrt (1 * 1))) 0 (1 / 2) ∧
    candidate (envelope (gig_lambda 0) (Real.sqrt (1 * 1))) 0 (1 / 2)
      ≤ (envelope (gig_lambda 0) (Real.sqrt (1 * 1))).td := by
  obtain ⟨-, -, -, -, -, -, -, -, hp, hq, hr⟩ :=
    envelope_pos (gig_lambda 0) (Real.sqrt (1 * 1)) (gig_lambda_nonneg 0)
      (Real.sqrt_pos.mpr (by norm_num))
  obtain ⟨⟨h1, -, -⟩, hcentral, -, -⟩ :=
    rejection_round_segments (gig_lambda 0) (Real.sqrt (1 * 1)) 0 (1 / 2) hp hq hr
      (by norm_num) (by norm_num)
  exact hcentral h1

end EnvelopeClaims

/-- C17 fails on the code: with `n_burnin = 1`, `n_iter = 4`, `thin = 2` the
iterations 2 and 4 are retained but `n_pst = (4 - 1) / 2 = 1`, so the weights
`1 / n_pst` sum to 2: on the scenario of the specification with the fixed
`phi = 1` the run returns `phi_est = 2`. -/
theorem retained_count_exceeds_n_pst :
    n_retained 4 1 2 = 2 ∧ n_pst 4 1 2 = 1 ∧
    (resultOf (prs_cs_mcmc demoLibs demoGig 0
        { scenario (some 1) with n_iter := 4, n_burnin := 1, thin := 2 })).map
      (fun r => r.1.phi_est) = some 2 := by
  refine ⟨by decide, by decide, by decide!⟩

section FreshDraws

variable {ρ σ ρ1 σ1 : Type}

/-- The loop of `gigrnd` started on the generator state reached after `k` draws
reads the draws `k, k+1, k+2, ...` of the fresh generator. -/
theorem rejection_loop_eq_loop_on_draws (L : Libs ρ σ ℝ) (E : Envelope) :
    ∀ (fuel k : Nat),
      rejection_loop L E fuel (fresh_state L k) = loop_on_draws (fresh_draw L) E fuel k := by
  intro fuel
  induction fuel with
  | zero => intro k; rfl
  | succ fuel ih =>
    intro k
    rw [rejection_loop, loop_on_draws]
    have h := ih (k + 3)
    simp only [fresh_state, fresh_draw] at h ⊢
    rw [h]

theorem loop_on_draws_congr (u v : Nat → ℝ) (h : ∀ k, u k = v k) (E : Envelope)
    (fuel k : Nat) : loop_on_draws u E fuel k = loop_on_draws v E fuel k := by
  have : u = v := funext h
  rw [this]

/-- C19: the result of `gigrnd(p, a, b)` is determined by `(p, a, b)` and the
draws of a freshly allocated default generator: every call starts from
`gsl_rng_alloc(gsl_rng_default)` and reads the same sequence `fresh_draw`, so
calls with equal arguments return equal values, and two library behaviours with
the same fresh draws (whatever the seed handling `gsl_rng_set`, the gamma and
normal sources and the state of any other generator) give the same result. -/
theorem gigrnd_reads_fresh_draws_only (L : Libs ρ σ ℝ) (L1 : Libs ρ1 σ1 ℝ) (fuel : Nat)
    (p a b : ℝ) (h : ∀ k, fresh_draw L1 k = fresh_draw L k) :
    gigrnd L fuel p a b
      = (loop_on_draws (fresh_draw L) (envelope (gig_lambda p) (Real.sqrt (a * b))) fuel 0).map
          (gig_transform p a b) ∧
    gigrnd L1 fuel p a b = gigrnd L fuel p a b := by
  have key : ∀ {ρ2 σ2 : Type} (M : Libs ρ2 σ2 ℝ), gigrnd M fuel p a b
      = (loop_on_draws (fresh_draw M) (envelope (gig_lambda p) (Real.sqrt (a * b))) fuel 0).map
          (gig_transform p a b) := by
    intro ρ2 σ2 M
    unfold gigrnd gig_accepted
    have := rejection_loop_eq_loop_on_draws M
      (envelope (gig_lambda p) (Real.sqrt (a * b))) fuel 0
    simp only [fresh_state] at this
    rw [this]
  refine ⟨key L, ?_⟩
  rw [key L1, key L, loop_on_draws_congr _ _ h]

theorem fresh_state_streamLibs (u : Nat → ℝ) (z gm : ℝ) (k : Nat) :
    fresh_state (streamLibs u z gm) k = k := by
  induction k with
  | zero => rfl
  | succ k ih => rw [fresh_state, ih]; rfl

theorem fresh_draw_streamLibs (u : Nat → ℝ) (z gm : ℝ) (k : Nat) :
    fresh_draw (streamLibs u z gm) k = u k := by
  rw [fresh_draw, fresh_state_streamLibs]
  rfl

/-- C19 on two library behaviours with the same uniform stream but other normal
and gamma draws: `gigrnd(0, 1, 1)` returns `1` under both. -/
theorem gigrnd_reads_fresh_draws_only_witness :
    gigrnd (streamLibs drawsQuarterHalf 5 7) 1 0 1 1
      = gigrnd (streamLibs drawsQuarterHalf 0 1) 1 0 1 1 ∧
    gigrnd (streamLibs drawsQuarterHalf 5 7) 1 0 1 1 = some 1 := by
  have h := (gigrnd_reads_fresh_draws_only (streamLibs drawsQuarterHalf 0 1)
    (streamLibs drawsQuarterHalf 5 7) 1 0 1 1
    (fun k => by rw [fresh_draw_streamLibs, fresh_draw_streamLibs])).2
  exact ⟨h, h.trans gigrnd_zero_one_one⟩

end FreshDraws

end PrsCs
